import Mathlib

/-!
Verification of the marktwo incremental paragraph-enhancement pipeline.

The definitions below are a shallow embedding of the TypeScript sources
(`src/markdownProcessor.ts`, the extension orchestrator, and the keep
operation).  JavaScript strings are modelled as Lean `String`s
(lists of characters; UTF-16 subtleties outside the claims' inputs are out of
scope), JS numbers used as line indices are modelled as `Int`, and JS `Map`s
are modelled as association lists with JS `Map` get/set semantics.
-/

namespace MarkTwo

/-- JS whitespace test (the ASCII whitespace characters; the exotic Unicode
space characters accepted by JS `\s`/`trim` do not occur in any input
considered here). -/
def jsIsSpace (c : Char) : Bool :=
  c = ' ' || c = '\t' || c = '\n' || c = '\r' || c = '\x0b' || c = '\x0c'

/-- JS `String.prototype.trim` on a character list. -/
def jsTrimList (l : List Char) : List Char :=
  ((l.dropWhile jsIsSpace).reverse.dropWhile jsIsSpace).reverse

/-- JS `String.prototype.trim`. -/
def jsTrim (s : String) : String :=
  String.mk (jsTrimList s.data)

/-- Case-insensitive literal match: consumes `lit` (compared lowercase, as the
`/i` regex flag does on ASCII) from the front of `l`, returning the rest. -/
def matchLitCI : List Char → List Char → Option (List Char)
  | [], l => some l
  | _ :: _, [] => none
  | a :: as, c :: cs => if a.toLower = c.toLower then matchLitCI as cs else none

/-- Case-sensitive literal prefix match, returning the rest. -/
def matchLit : List Char → List Char → Option (List Char)
  | [], l => some l
  | _ :: _, [] => none
  | a :: as, c :: cs => if a = c then matchLit as cs else none

/-- `\s*`: greedily drop whitespace. -/
def skipWs (l : List Char) : List Char := l.dropWhile jsIsSpace

end MarkTwo

namespace MarkTwo

/-- Paragraph type tags (`ParagraphType` in `types.ts`). -/
inductive ParagraphType where
  | text | heading | list | code | quote | empty | html | frontmatter | mdx
deriving DecidableEq, Repr

/-- Enhancement modes (`EnhancementMode` in `types.ts`). -/
inductive EnhancementMode where
  | expand | clarify | professional | casual | technical | listExpand
deriving DecidableEq, Repr

/-- A paragraph record (`Paragraph` in `types.ts`).  Line numbers are JS
numbers, modelled as `Int`. -/
structure Paragraph where
  content : String
  startLine : Int
  endLine : Int
  type : ParagraphType
  id : String
  ignore : Bool
  noEnhance : Bool
  styleOverride : Option EnhancementMode := none
deriving DecidableEq, Repr

/-- `MarkdownProcessor.buildContext`: JS `Array.prototype.slice` for the
in-range indices used there (`0 ≤ start ≤ end`). -/
def jsSlice (l : List Paragraph) (a b : Int) : List Paragraph :=
  (l.take b.toNat).drop a.toNat

/-- `MarkdownProcessor.buildContext(paragraphs, currentIndex, windowSize)`. -/
def buildContext (paragraphs : List Paragraph) (currentIndex windowSize : Int) : String :=
  if currentIndex ≤ 0 ∨ windowSize ≤ 0 then
    ""
  else
    String.intercalate "\n\n"
      ((jsSlice paragraphs (max 0 (currentIndex - windowSize)) currentIndex).map
        (fun p => p.content))

/-- The `${p.startLine}:${p.content}` key used by `findChangedParagraphs`. -/
def paraKey (p : Paragraph) : String :=
  toString p.startLine ++ ":" ++ p.content

/-- Result record of `findChangedParagraphs`. -/
structure ChangeResult where
  added : List Paragraph
  modified : List Paragraph
  removed : List Paragraph
deriving DecidableEq, Repr

/-- The `oldParagraphs.find(old => Math.abs(old.startLine - p.startLine) <= 2)`
lookup of `findChangedParagraphs`: the first old paragraph (in list order)
within the ±2-line tolerance of `p`'s start line. -/
def nearbyOld (oldParagraphs : List Paragraph) (p : Paragraph) : Option Paragraph :=
  oldParagraphs.find? (fun old => (old.startLine - p.startLine).natAbs ≤ 2)

/-- The added/modified classification loop of
`MarkdownProcessor.findChangedParagraphs` (iterating the new paragraphs in
order; `oldContents.has(key)` is key membership). -/
def addedModified (oldParagraphs : List Paragraph) : List Paragraph → List Paragraph × List Paragraph
  | [] => ([], [])
  | p :: rest =>
    let (a, m) := addedModified oldParagraphs rest
    if (oldParagraphs.map paraKey).contains (paraKey p) then
      (a, m)
    else
      match nearbyOld oldParagraphs p with
      | some oldAtPosition =>
        if oldAtPosition.content ≠ p.content then (a, p :: m) else (p :: a, m)
      | none => (p :: a, m)

/-- `MarkdownProcessor.findChangedParagraphs`. -/
def findChangedParagraphs (oldParagraphs newParagraphs : List Paragraph) : ChangeResult :=
  let (added, modified) := addedModified oldParagraphs newParagraphs
  let removed := oldParagraphs.filter (fun p =>
    !((newParagraphs.map paraKey).contains (paraKey p)) &&
    !(newParagraphs.any (fun np => (np.startLine - p.startLine).natAbs ≤ 2)))
  ⟨added, modified, removed⟩

/-- Specification-side classifier: a new paragraph counts as modified exactly
when its `(startLine, content)` key is absent from the old side and the first
old paragraph within the ±2-line tolerance has different content. -/
def isModifiedNew (oldParagraphs : List Paragraph) (p : Paragraph) : Bool :=
  !((oldParagraphs.map paraKey).contains (paraKey p)) &&
    (match nearbyOld oldParagraphs p with
     | some o => o.content ≠ p.content
     | none => false)

/-- Specification-side classifier: a new paragraph counts as added exactly when
its key is absent from the old side and the first old paragraph within the
±2-line tolerance (if any) has the same content. -/
def isAddedNew (oldParagraphs : List Paragraph) (p : Paragraph) : Bool :=
  !((oldParagraphs.map paraKey).contains (paraKey p)) &&
    (match nearbyOld oldParagraphs p with
     | some o => o.content = p.content
     | none => true)

end MarkTwo

namespace MarkTwo

/-! The orchestrator (`processDocument`, `keepParagraph`) of the extension
entry module, with the external enhancement service as an oracle parameter and
the three fingerprint-keyed caches as explicit state.  The display surface
(panel updates, status messages) and log output carry no program state and are
not modelled; the cancellation token is modelled as never cancelled. -/

/-- Wrap to a signed 32-bit integer (JS `x & x` / `ToInt32`). -/
def toInt32 (n : Int) : Int :=
  let m := n % 4294967296
  if m < 2147483648 then m else m - 4294967296

/-- One iteration of `hashContent`'s loop:
`hash = ((hash << 5) - hash) + char; hash = hash & hash`.  The shift operates
on 32-bit values, so it is `toInt32 (hash * 32)` for an in-range `hash`. -/
def hashStep (h : Int) (c : Char) : Int :=
  toInt32 (toInt32 (h * 32) - h + (c.toNat : Int))

/-- JS `Number.prototype.toString(16)` (lowercase hex, `-` sign). -/
def jsToStringHex (i : Int) : String :=
  if i < 0 then "-" ++ String.mk (Nat.toDigits 16 i.natAbs)
  else String.mk (Nat.toDigits 16 i.toNat)

/-- `hashContent`: the fast non-cryptographic content hash, rendered as
`h<hex>_<length>`. -/
def hashContent (content : String) : String :=
  "h" ++ jsToStringHex (content.data.foldl hashStep 0) ++ "_" ++ toString content.data.length

/-- The content fingerprint used as cache key: hash of the trimmed content. -/
def fingerprint (p : Paragraph) : String :=
  hashContent (jsTrim p.content)

/-- JS `Map.get` on an association list. -/
def mapGet {α : Type} (m : List (String × α)) (k : String) : Option α :=
  (m.find? (fun e => e.1 = k)).map (fun e => e.2)

/-- JS `Map.set` on an association list (update in place, else append). -/
def mapSet {α : Type} (m : List (String × α)) (k : String) (v : α) : List (String × α) :=
  if m.any (fun e => e.1 = k) then m.map (fun e => if e.1 = k then (k, v) else e)
  else m ++ [(k, v)]

/-- Suggestion category (`SuggestionCategory` in `types.ts`). -/
inductive SuggestionCategory where
  | improvement | gap | idea
deriving DecidableEq, Repr

/-- A suggestion (`Suggestion` in `types.ts`). -/
structure Suggestion where
  category : SuggestionCategory
  title : String
  description : String
  examples : Option (List String) := none
  paragraphIndex : Option Nat := none
deriving DecidableEq, Repr

/-- Paragraph enhancement status (`EnhancementStatus` in `types.ts`). -/
inductive EnhancementStatus where
  | pending | processing | complete | error
deriving DecidableEq, Repr

/-- `EnhancedParagraph` in `types.ts`; the optional `kept?: boolean` is
modelled as a `Bool` defaulting to `false` (its only uses are truthiness
tests). -/
structure EnhancedParagraph where
  original : Paragraph
  enhanced : String
  status : EnhancementStatus
  error : Option String := none
  appliedStyle : Option EnhancementMode := none
  kept : Bool := false
  suggestions : Option (List Suggestion) := none
deriving DecidableEq, Repr

/-- `EnhancementSettings` in `types.ts`. -/
structure EnhancementSettings where
  enhancementMode : EnhancementMode
  contextWindowSize : Int
  debounceDelay : Int
  autoEnhance : Bool
  preferredModelFamily : String
  authorStyleSample : String
  audience : String
  showConsiderPanel : Bool
  fileExtensions : List String
deriving DecidableEq, Repr

/-- The request handed to `aiService.enhance` (`EnhancementRequest` in
`types.ts`). -/
structure EnhancementRequest where
  paragraph : String
  context : String
  mode : EnhancementMode
  documentTitle : String
  authorStyleSample : Option String
  audience : Option String
  paragraphType : ParagraphType
deriving DecidableEq, Repr

/-- The fields of the service response consumed by the orchestrator
(`response.enhanced` and `response.suggestions`). -/
structure EnhanceResult where
  enhanced : String
  suggestions : Option (List Suggestion)
deriving DecidableEq, Repr

/-- An entry of the enhancement result cache. -/
structure CacheEntry where
  enhanced : String
  suggestions : Option (List Suggestion)
deriving DecidableEq, Repr

/-- The three process-wide fingerprint-keyed caches. -/
structure Caches where
  enhancedCache : List (String × CacheEntry)
  appliedStyleCache : List (String × EnhancementMode)
  keptParagraphsCache : List (String × Bool)
deriving DecidableEq, Repr

/-- JS `s || undefined` for a string setting. -/
def jsStrOpt (s : String) : Option String :=
  if s = "" then none else some s

/-- The initial `EnhancedParagraph` built for each extracted paragraph by
`processDocument` before the enhancement loop runs. -/
def initEnhanced (caches : Caches) (forceRefresh : Bool) (changes : ChangeResult)
    (para : Paragraph) : EnhancedParagraph :=
  let contentHash := hashContent (jsTrim para.content)
  let persistedStyle := mapGet caches.appliedStyleCache contentHash
  let isKept := (mapGet caches.keptParagraphsCache contentHash).getD false
  if isKept then
    { original := para, enhanced := para.content, status := .complete,
      appliedStyle := persistedStyle, kept := true }
  else
    match (if forceRefresh then none else mapGet caches.enhancedCache contentHash) with
    | some cached =>
      { original := para, enhanced := cached.enhanced, status := .complete,
        appliedStyle := persistedStyle, suggestions := cached.suggestions }
    | none =>
      if forceRefresh || changes.added.contains para ||
          changes.modified.any (fun m => m.startLine = para.startLine) ||
          !((mapGet caches.enhancedCache contentHash).isSome) then
        { original := para, enhanced := para.content, status := .pending,
          appliedStyle := persistedStyle }
      else
        { original := para, enhanced := para.content, status := .complete,
          appliedStyle := persistedStyle }

/-- Paragraphs the loop completes without a service call (code blocks, MDX
syntax, and skip/keep flagged paragraphs). -/
def isSkipped (p : Paragraph) : Bool :=
  p.type = .code || p.type = .mdx || p.ignore || p.noEnhance

/-- The request the loop body sends for the paragraph at index `i`
(context window from the preceding paragraphs, the paragraph's own style
override or the configured mode, empty settings strings mapped to absent
fields, as in the source call site). -/
def buildRequest (settings : EnhancementSettings) (docTitle : String)
    (newParagraphs : List Paragraph) (i : Nat) (p : Paragraph) : EnhancementRequest :=
  { paragraph := p.content,
    context := buildContext newParagraphs (i : Int) settings.contextWindowSize,
    mode := p.styleOverride.getD settings.enhancementMode,
    documentTitle := docTitle,
    authorStyleSample := jsStrOpt settings.authorStyleSample,
    audience := jsStrOpt settings.audience,
    paragraphType := p.type }

/-- One iteration of the enhancement loop for the item at index `i`: skip
non-pending items, complete skip-typed items without a call, otherwise call
the service and on success store the result and write through both caches, on
failure record the error and continue.  Returns the updated item, the updated
caches, and the request sent (if any). -/
def processItem (svc : EnhancementRequest → Except String EnhanceResult)
    (settings : EnhancementSettings) (docTitle : String)
    (newParagraphs : List Paragraph) (i : Nat) (ep : EnhancedParagraph)
    (caches : Caches) : EnhancedParagraph × Caches × Option EnhancementRequest :=
  if ep.status ≠ EnhancementStatus.pending then
    (ep, caches, none)
  else if isSkipped ep.original then
    ({ ep with status := .complete }, caches, none)
  else
    match svc (buildRequest settings docTitle newParagraphs i ep.original) with
    | Except.ok response =>
      ({ ep with
          enhanced := response.enhanced,
          status := .complete,
          appliedStyle := some (ep.original.styleOverride.getD settings.enhancementMode),
          suggestions :=
            match response.suggestions with
            | some s => if 0 < s.length then some s else ep.suggestions
            | none => ep.suggestions },
        { caches with
          enhancedCache :=
            mapSet caches.enhancedCache (hashContent (jsTrim ep.original.content))
              ⟨response.enhanced, response.suggestions⟩,
          appliedStyleCache :=
            mapSet caches.appliedStyleCache (hashContent (jsTrim ep.original.content))
              (ep.original.styleOverride.getD settings.enhancementMode) },
        some (buildRequest settings docTitle newParagraphs i ep.original))
    | Except.error msg =>
      ({ ep with status := .error, error := some msg },
        caches,
        some (buildRequest settings docTitle newParagraphs i ep.original))

/-- The enhancement loop over the remaining items, threading the caches and
collecting the requests sent (paired with their item index). -/
def runLoop (svc : EnhancementRequest → Except String EnhanceResult)
    (settings : EnhancementSettings) (docTitle : String)
    (newParagraphs : List Paragraph) :
    List EnhancedParagraph → Nat → Caches →
      List EnhancedParagraph × Caches × List (Nat × EnhancementRequest)
  | [], _, caches => ([], caches, [])
  | ep :: rest, i, caches =>
    match processItem svc settings docTitle newParagraphs i ep caches with
    | (ep1, caches1, call1) =>
      match runLoop svc settings docTitle newParagraphs rest (i + 1) caches1 with
      | (restOut, caches2, calls) =>
        (ep1 :: restOut, caches2,
          match call1 with
          | some r => (i, r) :: calls
          | none => calls)

/-- Result of one `processDocument` pass: the published enhanced paragraphs,
the caches after the pass, and the service requests made. -/
structure ProcResult where
  output : List EnhancedParagraph
  caches : Caches
  calls : List (Nat × EnhancementRequest)
deriving DecidableEq, Repr

/-- `processDocument`: diff against the previous paragraph list, build the
initial enhanced-paragraph list, then run the sequential enhancement loop. -/
def processDocument (svc : EnhancementRequest → Except String EnhanceResult)
    (settings : EnhancementSettings) (docTitle : String)
    (prevParagraphs newParagraphs : List Paragraph) (caches : Caches)
    (forceRefresh : Bool) : ProcResult :=
  let changes := findChangedParagraphs prevParagraphs newParagraphs
  let enhancedParagraphs := newParagraphs.map (initEnhanced caches forceRefresh changes)
  let r := runLoop svc settings docTitle newParagraphs enhancedParagraphs 0 caches
  ⟨r.1, r.2.1, r.2.2⟩

/-- JS `split(/\n\n+/)`: cut at each maximal run of two or more newlines.
Structural recursion over a fuel bound (one unit per consumed character, so
`length + 1` fuel always suffices and the fuel-exhausted arm is dead code). -/
def splitRunsAux : Nat → List Char → List Char → List (List Char)
  | 0, l, acc => [acc.reverse ++ l]
  | fuel + 1, l, acc =>
    match l with
    | [] => [acc.reverse]
    | '\n' :: '\n' :: rest =>
      acc.reverse :: splitRunsAux fuel (rest.dropWhile (fun c => c = '\n')) []
    | c :: rest => splitRunsAux fuel rest (c :: acc)

/-- JS `enhancedText.split(/\n\n+/)`. -/
def jsSplitBlankRuns (s : String) : List String :=
  (splitRunsAux (s.data.length + 1) s.data []).map String.mk

/-- The keep directive for the target file kind (`.mdx` uses the JSX comment
notation, everything else the HTML comment notation). -/
def noEnhanceCommentFor (isMdxFile : Bool) : String :=
  if isMdxFile then "\x7b/* no-enhance */\x7d" else "<!-- no-enhance -->"

/-- The replacement text built by `keepParagraph`: split the enhanced text on
blank-line runs, trim each piece, drop empty pieces, prefix each remaining
piece with the keep directive, and join with single newlines. -/
def buildKeepReplacement (enhancedText : String) (isMdxFile : Bool) : String :=
  let noEnhanceComment := noEnhanceCommentFor isMdxFile
  let paragraphs := jsSplitBlankRuns enhancedText
  String.intercalate "\n"
    (((paragraphs.map jsTrim).filter (fun p => 0 < p.length)).map
      (fun p => noEnhanceComment ++ "\n" ++ p))

/-- Empty caches (the initial process state). -/
def emptyCaches : Caches := ⟨[], [], []⟩

/-- Erase the process-unique id of a paragraph (ids are freshly generated on
every extraction pass and carry no durable identity). -/
def stripId (p : Paragraph) : Paragraph :=
  { p with id := "" }

/-- Erase the paragraph id inside an enhanced-paragraph record. -/
def stripEId (ep : EnhancedParagraph) : EnhancedParagraph :=
  { ep with original := stripId ep.original }

/-- Outcome of the `keepParagraph` command for one paragraph. -/
structure KeepResult where
  para : EnhancedParagraph
  keptParagraphsCache : List (String × Bool)
  errorShown : Bool
  editAttempted : Bool
  replacement : Option String
deriving DecidableEq, Repr

/-- `keepParagraph`: build the replacement text from the current enhanced text
(JS `para.enhanced || para.original.content`), then replace the paragraph's
recorded line range in the document.  Reading the range end line
(`document.lineAt(endLine)`) throws when the recorded range is no longer valid
for the document's current line count; the surrounding catch then shows an
error message and the function exits before the in-memory kept state or the
kept-set are touched.  When the range is valid the edit is attempted and its
boolean result (`editSucceeds`) is ignored: the paragraph is marked kept, its
suggestions cleared, and its fingerprint persisted to the kept-set either
way. -/
def keepParagraph (ep : EnhancedParagraph) (docLineCount : Int) (isMdxFile : Bool)
    (editSucceeds : Bool) (keptCache : List (String × Bool)) : KeepResult :=
  let enhancedText := if ep.enhanced = "" then ep.original.content else ep.enhanced
  let replacementText := buildKeepReplacement enhancedText isMdxFile
  if 0 ≤ ep.original.startLine ∧ 0 ≤ ep.original.endLine ∧
      ep.original.endLine < docLineCount then
    { para := { ep with kept := true, suggestions := some [] },
      keptParagraphsCache := mapSet keptCache (hashContent (jsTrim ep.original.content)) true,
      errorShown := false,
      editAttempted := true,
      replacement := some replacementText }
  else
    { para := ep, keptParagraphsCache := keptCache,
      errorShown := true, editAttempted := false, replacement := none }

end MarkTwo

namespace MarkTwo

/-! The segmenter (`MarkdownProcessor.extractParagraphs`) as a line-oriented
state machine, with the directive regexes implemented as explicit
character-list matchers. -/

/-- ASCII `[A-Z]`. -/
def isUpperAZ (c : Char) : Bool :=
  65 ≤ c.toNat && c.toNat ≤ 90

/-- ASCII `[a-z]`. -/
def isLowerAZ (c : Char) : Bool :=
  97 ≤ c.toNat && c.toNat ≤ 122

/-- ASCII `[0-9]` (regex `\d`). -/
def isDigitChar (c : Char) : Bool :=
  48 ≤ c.toNat && c.toNat ≤ 57

/-- Regex `[a-zA-Z0-9]`. -/
def isAlphaNumChar (c : Char) : Bool :=
  isUpperAZ c || isLowerAZ c || isDigitChar c

/-- Regex `[a-zA-Z]`. -/
def isAsciiLetterChar (c : Char) : Bool :=
  isUpperAZ c || isLowerAZ c

/-- The opening brace character (written via its code point). -/
def lbrace : Char := Char.ofNat 123

/-- The closing brace character (written via its code point). -/
def rbrace : Char := Char.ofNat 125

/-- JS `String.prototype.startsWith` for a literal prefix. -/
def startsWithLit (pre : List Char) (s : String) : Bool :=
  (matchLit pre s.data).isSome

/-- The six style-mode keywords in the regex alternation's order. -/
def styleModeAlts : List (List Char × EnhancementMode) :=
  [("expand".data, .expand), ("clarify".data, .clarify),
   ("professional".data, .professional), ("casual".data, .casual),
   ("technical".data, .technical), ("list-expand".data, .listExpand)]

/-- Match one of the style-mode keywords (case-insensitively, in alternation
order; no keyword is a prefix of another, so the first match is the regex
match) and return the rest of the input. -/
def matchModeKeyword (l : List Char) : Option (EnhancementMode × List Char) :=
  styleModeAlts.findSome? (fun alt =>
    match matchLitCI alt.1 l with
    | some rest => some (alt.2, rest)
    | none => none)

/-- Anchored whole-line directive: `^opener\s*body\s*closer$` (case
insensitive), as in the standalone skip/keep directive regexes. -/
def matchDirectiveLine (opener body closer : List Char) (l : List Char) : Bool :=
  match matchLitCI opener l with
  | none => false
  | some r1 =>
    match matchLitCI body (skipWs r1) with
    | none => false
    | some r2 =>
      match matchLitCI closer (skipWs r2) with
      | some [] => true
      | _ => false

/-- `^(?:<!--\s*ai-ignore\s*-->|\{/*\s*ai-ignore\s*(*/)\})$/i` on the trimmed
line. -/
def isAiIgnoreLine (trimmedLine : String) : Bool :=
  matchDirectiveLine "<!--".data "ai-ignore".data "-->".data trimmedLine.data ||
  matchDirectiveLine "\x7b/*".data "ai-ignore".data "*/\x7d".data trimmedLine.data

/-- The standalone keep/approve directive line (no-enhance), both notations. -/
def isNoEnhanceLine (trimmedLine : String) : Bool :=
  matchDirectiveLine "<!--".data "no-enhance".data "-->".data trimmedLine.data ||
  matchDirectiveLine "\x7b/*".data "no-enhance".data "*/\x7d".data trimmedLine.data

/-- One notation of the anchored style-override directive line:
`^opener\s*ai-style:\s*(mode)\s*closer$` (case insensitive). -/
def matchStyleLineWith (opener closer : List Char) (l : List Char) : Option EnhancementMode :=
  match matchLitCI opener l with
  | none => none
  | some r1 =>
    match matchLitCI "ai-style:".data (skipWs r1) with
    | none => none
    | some r2 =>
      match matchModeKeyword (skipWs r2) with
      | none => none
      | some (m, r3) =>
        match matchLitCI closer (skipWs r3) with
        | some [] => some m
        | _ => none

/-- The standalone style-override directive line, both notations (the
captured keyword is lowercased into the mode, as the source does). -/
def parseStyleLine (trimmedLine : String) : Option EnhancementMode :=
  (matchStyleLineWith "<!--".data "-->".data trimmedLine.data).or
    (matchStyleLineWith "\x7b/*".data "*/\x7d".data trimmedLine.data)

/-- Unanchored comment-directive occurrence at this position:
`opener\s*body\s*closer` (case insensitive), not required to reach the end. -/
def matchCommentAt (opener body closer : List Char) (l : List Char) : Bool :=
  match matchLitCI opener l with
  | none => false
  | some r1 =>
    match matchLitCI body (skipWs r1) with
    | none => false
    | some r2 => (matchLitCI closer (skipWs r2)).isSome

/-- `AI_IGNORE_PATTERN.test`: the skip directive occurring anywhere in the
text (either notation). -/
def hasAiIgnoreComment (text : String) : Bool :=
  text.data.tails.any (fun l =>
    matchCommentAt "<!--".data "ai-ignore".data "-->".data l ||
    matchCommentAt "\x7b/*".data "ai-ignore".data "*/\x7d".data l)

/-- `NO_ENHANCE_PATTERN.test`. -/
def hasNoEnhanceComment (text : String) : Bool :=
  text.data.tails.any (fun l =>
    matchCommentAt "<!--".data "no-enhance".data "-->".data l ||
    matchCommentAt "\x7b/*".data "no-enhance".data "*/\x7d".data l)

/-- Unanchored style-directive occurrence at this position, returning the
mode. -/
def matchStyleAt (opener closer : List Char) (l : List Char) : Option EnhancementMode :=
  match matchLitCI opener l with
  | none => none
  | some r1 =>
    match matchLitCI "ai-style:".data (skipWs r1) with
    | none => none
    | some r2 =>
      match matchModeKeyword (skipWs r2) with
      | none => none
      | some (m, r3) =>
        if (matchLitCI closer (skipWs r3)).isSome then some m else none

/-- `extractStyleOverride`: the leftmost style-directive occurrence in the
text (HTML alternative tried before JSX at each position, as the regex
alternation does). -/
def extractStyleOverride (text : String) : Option EnhancementMode :=
  text.data.tails.findSome? (fun l =>
    (matchStyleAt "<!--".data "-->".data l).or
      (matchStyleAt "\x7b/*".data "*/\x7d".data l))

/-- Index of the first `>` in the list. -/
def idxOfGt : List Char → Option Nat
  | [] => none
  | c :: rest => if c = '>' then some 0 else (idxOfGt rest).map (fun k => k + 1)

/-- JS `content.replace(/<[^>]+>/g, '')`: repeatedly delete the leftmost
`<`…`>` pair with at least one character between (fuel-based structural
recursion; `length + 1` fuel always suffices). -/
def removeHtmlTags : Nat → List Char → List Char
  | 0, l => l
  | fuel + 1, l =>
    match l with
    | [] => []
    | c :: rest =>
      if c = '<' then
        match idxOfGt rest with
        | some k =>
          if 1 ≤ k then removeHtmlTags fuel (rest.drop (k + 1))
          else c :: removeHtmlTags fuel rest
        | none => c :: removeHtmlTags fuel rest
      else c :: removeHtmlTags fuel rest

/-- `/^\s*<[a-zA-Z]/.test(content)`. -/
def startsWithHtmlTag (content : String) : Bool :=
  match skipWs content.data with
  | '<' :: c :: _ => isAsciiLetterChar c
  | _ => false

/-- `MarkdownProcessor.isHtmlOnly`.  The source compares
`withoutTags.length < content.length * 0.1` with a floating-point literal;
this is modelled by the exact rational comparison `10·|withoutTags| < |content|`
(the two differ only on exact-boundary lengths, which no claim exercises). -/
def isHtmlOnly (content : String) : Bool :=
  let withoutTags := jsTrim (String.mk (removeHtmlTags (content.data.length + 1) content.data))
  if withoutTags.length = 0 then true
  else if startsWithHtmlTag content && 10 * withoutTags.length < content.data.length then true
  else false

/-- `^kw\s+` (case sensitive): the keyword followed by at least one
whitespace character. -/
def matchKeywordWs (kw : List Char) (l : List Char) : Bool :=
  match matchLit kw l with
  | some (c :: _) => jsIsSpace c
  | _ => false

/-- `/^<[A-Z][a-zA-Z0-9]*(\s|\/|>)/`. -/
def startsComponentTag (l : List Char) : Bool :=
  match l with
  | '<' :: c :: rest =>
    isUpperAZ c &&
      (match rest.dropWhile isAlphaNumChar with
       | [] => false
       | d :: _ => jsIsSpace d || d = '/' || d = '>')
  | _ => false

/-- `/^<[A-Z][a-zA-Z0-9]*[^>]*\/>$/`: starts `<` + uppercase, ends `/>`,
no `>` in between. -/
def selfClosingComponent (l : List Char) : Bool :=
  match l with
  | '<' :: c :: rest =>
    isUpperAZ c &&
      (match rest.reverse with
       | '>' :: '/' :: revMid => !(revMid.any (fun x => x = '>'))
       | _ => false)
  | _ => false

/-- A suffix of the form `</[A-Z][a-zA-Z0-9]*>` ending the string. -/
def isClosingTag (t : List Char) : Bool :=
  match t with
  | '<' :: '/' :: u :: bodyrest =>
    isUpperAZ u &&
      (match bodyrest.dropWhile isAlphaNumChar with
       | ['>'] => true
       | _ => false)
  | _ => false

/-- `/^<[A-Z][a-zA-Z0-9]*[^>]*>.*<\/[A-Z][a-zA-Z0-9]*>$/s`: an opening
component tag closed at the first `>`, and a closing component tag ending
the string somewhere after it. -/
def pairedComponent (l : List Char) : Bool :=
  match l with
  | '<' :: c :: rest =>
    isUpperAZ c &&
      (match idxOfGt rest with
       | some k => (rest.drop (k + 1)).tails.any isClosingTag
       | none => false)
  | _ => false

/-- `/^\{[^}]+\}$/`. -/
def braceExpr (l : List Char) : Bool :=
  match l with
  | c :: rest =>
    c = lbrace &&
      (match rest.reverse with
       | d :: revMid => d = rbrace && 1 ≤ revMid.length && !(revMid.any (fun x => x = rbrace))
       | [] => false)
  | [] => false

/-- `/^\{\/\*[\s\S]*\*\/\}$/`. -/
def jsxCommentWhole (l : List Char) : Bool :=
  6 ≤ l.length && l.take 3 == "\x7b/*".data && l.drop (l.length - 3) == "*/\x7d".data

/-- `/\{\/\*\s*(ai-ignore|no-enhance|ai-style:)/i.test`: an own-directive
marker occurring anywhere in the text. -/
def hasJsxDirectiveMarker (s : String) : Bool :=
  s.data.tails.any (fun l =>
    match matchLitCI "\x7b/*".data l with
    | none => false
    | some r =>
      (matchLitCI "ai-ignore".data (skipWs r)).isSome ||
      (matchLitCI "no-enhance".data (skipWs r)).isSome ||
      (matchLitCI "ai-style:".data (skipWs r)).isSome)

/-- `MarkdownProcessor.isMdxSyntax` on the (already trimmed internally)
content. -/
def isMdxSyntax (content : String) : Bool :=
  let trimmed := jsTrim content
  if matchKeywordWs "import".data trimmed.data then true
  else if matchKeywordWs "export".data trimmed.data then true
  else if startsComponentTag trimmed.data &&
      (selfClosingComponent trimmed.data || pairedComponent trimmed.data) then true
  else if braceExpr trimmed.data && !(hasJsxDirectiveMarker trimmed) then true
  else if jsxCommentWhole trimmed.data && !(hasJsxDirectiveMarker trimmed) then true
  else false

/-- `/^[\-\*\+]\s/ || /^\d+\.\s/` on the trimmed first line. -/
def listMarker (l : List Char) : Bool :=
  (match l with
   | c :: d :: _ => (c = '-' || c = '*' || c = '+') && jsIsSpace d
   | _ => false) ||
  (let ds := l.takeWhile isDigitChar
   !(ds.isEmpty) &&
     (match l.drop ds.length with
      | '.' :: d :: _ => jsIsSpace d
      | _ => false))

/-- `MarkdownProcessor.detectParagraphType`. -/
def detectParagraphType (lines : List String) : ParagraphType :=
  match lines with
  | [] => ParagraphType.empty
  | l0 :: _ =>
    let firstLine := jsTrim l0
    let fullContent := jsTrim (String.intercalate "\n" lines)
    if isMdxSyntax fullContent then .mdx
    else if startsWithLit "#".data firstLine then .heading
    else if listMarker firstLine.data then .list
    else if startsWithLit ">".data firstLine then .quote
    else if startsWithLit "```".data firstLine || startsWithLit "~~~".data firstLine then .code
    else if isHtmlOnly fullContent then .html
    else .text

/-- The segmentation state (the loop's local variables). -/
structure ExtractState where
  paragraphs : List Paragraph
  currentParagraph : List String
  startLine : Int
  inCodeBlock : Bool
  codeBlockDelimiter : String
  ignoreNextParagraph : Bool
  noEnhanceNextParagraph : Bool
  styleOverrideNext : Option EnhancementMode
  inFrontmatter : Bool
  frontmatterStart : Int
  idCounter : Nat
deriving DecidableEq, Repr

/-- The loop's initial state (id counter threaded from the processor
instance). -/
def initExtractState (c0 : Nat) : ExtractState :=
  ⟨[], [], 0, false, "", false, false, none, false, -1, c0⟩

/-- `generateId`: the `Date.now()` timestamp component is environmental
nondeterminism and is omitted; within-pass uniqueness comes from the
counter. -/
def generateId (n : Nat) : String :=
  "para_" ++ toString n

/-- The repeated close-accumulated-paragraph block: if the accumulated
content is non-blank, push a paragraph record ending at `endLine`, computing
flags from the pending directive flags and inline directive occurrences.
`resetPendings` distinguishes the sites that clear the pending flags inside
the push (blank-line and code-fence flush) from the directive-line sites
that reset flags on their own. -/
def pushAccum (resetPendings : Bool) (st : ExtractState) (endLine : Int) : ExtractState :=
  let paraContent := String.intercalate "\n" st.currentParagraph
  if jsTrim paraContent ≠ "" then
    { st with
      paragraphs := st.paragraphs ++ [{
        content := paraContent,
        startLine := st.startLine,
        endLine := endLine,
        type := detectParagraphType st.currentParagraph,
        id := generateId st.idCounter,
        ignore := st.ignoreNextParagraph || hasAiIgnoreComment paraContent,
        noEnhance := st.noEnhanceNextParagraph || hasNoEnhanceComment paraContent,
        styleOverride := st.styleOverrideNext.or (extractStyleOverride paraContent) }],
      idCounter := st.idCounter + 1,
      ignoreNextParagraph := if resetPendings then false else st.ignoreNextParagraph,
      noEnhanceNextParagraph := if resetPendings then false else st.noEnhanceNextParagraph,
      styleOverrideNext := if resetPendings then none else st.styleOverrideNext }
  else st

/-- One iteration of the `extractParagraphs` loop for line `i`. -/
def extractStep (st : ExtractState) (i : Nat) (line : String) : ExtractState :=
  let trimmedLine := jsTrim line
  if i = 0 ∧ trimmedLine = "---" then
    { st with inFrontmatter := true, frontmatterStart := 0, currentParagraph := [line] }
  else if st.inFrontmatter = true ∧ trimmedLine = "---" then
    { st with
      paragraphs := st.paragraphs ++ [{
        content := String.intercalate "\n" (st.currentParagraph ++ [line]),
        startLine := st.frontmatterStart, endLine := (i : Int),
        type := .frontmatter, id := generateId st.idCounter,
        ignore := true, noEnhance := false }],
      idCounter := st.idCounter + 1,
      currentParagraph := [], inFrontmatter := false, frontmatterStart := -1 }
  else if st.inFrontmatter = true then
    { st with currentParagraph := st.currentParagraph ++ [line] }
  else if isAiIgnoreLine trimmedLine = true then
    if st.currentParagraph ≠ [] then
      { pushAccum false st ((i : Int) - 1) with
        currentParagraph := [], noEnhanceNextParagraph := false, styleOverrideNext := none,
        ignoreNextParagraph := true }
    else { st with ignoreNextParagraph := true }
  else if isNoEnhanceLine trimmedLine = true then
    if st.currentParagraph ≠ [] then
      { pushAccum false st ((i : Int) - 1) with
        currentParagraph := [], ignoreNextParagraph := false, styleOverrideNext := none,
        noEnhanceNextParagraph := true }
    else { st with noEnhanceNextParagraph := true }
  else if (parseStyleLine trimmedLine).isSome = true then
    { st with styleOverrideNext := parseStyleLine trimmedLine }
  else if startsWithLit "```".data trimmedLine = true ∨ startsWithLit "~~~".data trimmedLine = true then
    if st.inCodeBlock = false then
      let st1 := if st.currentParagraph ≠ [] then
          { pushAccum true st ((i : Int) - 1) with currentParagraph := [] }
        else st;
      { st1 with
        inCodeBlock := true,
        codeBlockDelimiter := if startsWithLit "```".data trimmedLine then "```" else "~~~",
        currentParagraph := [line], startLine := (i : Int) }
    else if startsWithLit st.codeBlockDelimiter.data trimmedLine = true then
      { st with
        paragraphs := st.paragraphs ++ [{
          content := String.intercalate "\n" (st.currentParagraph ++ [line]),
          startLine := st.startLine, endLine := (i : Int),
          type := .code, id := generateId st.idCounter,
          ignore := true, noEnhance := false }],
        idCounter := st.idCounter + 1,
        currentParagraph := [], inCodeBlock := false, codeBlockDelimiter := "",
        ignoreNextParagraph := false, noEnhanceNextParagraph := false,
        styleOverrideNext := none }
    else { st with currentParagraph := st.currentParagraph ++ [line] }
  else if st.inCodeBlock = true then
    { st with currentParagraph := st.currentParagraph ++ [line] }
  else if trimmedLine = "" then
    if st.currentParagraph ≠ [] then
      { pushAccum true st ((i : Int) - 1) with currentParagraph := [] }
    else st
  else
    { st with
      startLine := if st.currentParagraph = [] then (i : Int) else st.startLine,
      currentParagraph := st.currentParagraph ++ [line] }

/-- Run the loop over the remaining lines, threading the line index. -/
def runLines : List String → Nat → ExtractState → ExtractState
  | [], _, st => st
  | l :: ls, i, st => runLines ls (i + 1) (extractStep st i l)

/-- The trailing flush after the loop (`inCodeBlock` forces type code). -/
def finalFlush (st : ExtractState) (numLines : Nat) : List Paragraph :=
  if st.currentParagraph ≠ [] then
    let paraContent := String.intercalate "\n" st.currentParagraph
    if jsTrim paraContent ≠ "" then
      st.paragraphs ++ [{
        content := paraContent, startLine := st.startLine,
        endLine := (numLines : Int) - 1,
        type := if st.inCodeBlock then .code else detectParagraphType st.currentParagraph,
        id := generateId st.idCounter,
        ignore := st.ignoreNextParagraph || hasAiIgnoreComment paraContent,
        noEnhance := st.noEnhanceNextParagraph || hasNoEnhanceComment paraContent,
        styleOverride := st.styleOverrideNext.or (extractStyleOverride paraContent) }]
    else st.paragraphs
  else st.paragraphs

/-- JS `content.split('\n')` (structural, kernel-reducible). -/
def splitLinesAux : List Char → List Char → List String
  | [], acc => [String.mk acc.reverse]
  | c :: rest, acc =>
    if c = '\n' then String.mk acc.reverse :: splitLinesAux rest []
    else splitLinesAux rest (c :: acc)

/-- JS `content.split('\n')`. -/
def jsSplitLines (s : String) : List String :=
  splitLinesAux s.data []

/-- `MarkdownProcessor.extractParagraphs`, with the processor's id counter
as an explicit parameter. -/
def extractParagraphs (c0 : Nat) (content : String) : List Paragraph :=
  let lines := jsSplitLines content
  finalFlush (runLines lines 0 (initExtractState c0)) lines.length

/-- Is this line (before trimming) a standalone directive line of any of the
three kinds? -/
def isDirectiveLine (line : String) : Bool :=
  isAiIgnoreLine (jsTrim line) || isNoEnhanceLine (jsTrim line) ||
    (parseStyleLine (jsTrim line)).isSome

/-- Is this line a standalone style-override directive line? -/
def isStyleLine (line : String) : Bool :=
  (parseStyleLine (jsTrim line)).isSome

/-- No standalone directive line occurs while the machine is inside a fenced
code region (checked along the actual run). -/
def noDirLineInCodeAux : List String → Nat → ExtractState → Bool
  | [], _, _ => true
  | l :: ls, i, st =>
    (!st.inCodeBlock || !(isDirectiveLine l)) &&
      noDirLineInCodeAux ls (i + 1) (extractStep st i l)

/-- No standalone directive line inside a fenced code region, for the whole
document. -/
def noDirectiveLineInCode (c0 : Nat) (content : String) : Bool :=
  noDirLineInCodeAux (jsSplitLines content) 0 (initExtractState c0)

/-- The slice `[a, b)` of the line list. -/
def sliceList (lines : List String) (a b : Nat) : List String :=
  (lines.take b).drop a

/-- The joined text of lines `a..b` (inclusive). -/
def joinRange (lines : List String) (a b : Int) : String :=
  String.intercalate "\n" (sliceList lines a.toNat (b.toNat + 1))

/-- No standalone style-override directive line strictly between `a` and `b`
(exclusive bounds). -/
def NoStyleBetween (lines : List String) (a b : Int) : Prop :=
  ∀ j : Nat, a < (j : Int) → (j : Int) < b → isStyleLine (lines.getD j "") = false

/-- Well-formedness of one emitted paragraph relative to bound `i`: a span
inside `[0, i)` in the right order, whose content is the joined source lines
of the span as long as no standalone style-override line was silently
dropped inside it. -/
def ParagraphOk (lines : List String) (i : Int) (p : Paragraph) : Prop :=
  0 ≤ p.startLine ∧ p.startLine ≤ p.endLine ∧ p.endLine < i ∧
  (NoStyleBetween lines p.startLine (p.endLine + 1) →
    p.content = joinRange lines p.startLine p.endLine)

/-- The segmentation loop invariant after processing lines `0..i-1`. -/
def ExtractInv (lines : List String) (i : Nat) (st : ExtractState) : Prop :=
  (∀ p ∈ st.paragraphs, ParagraphOk lines (i : Int) p) ∧
  st.paragraphs.Pairwise (fun a b => a.endLine < b.startLine) ∧
  (st.currentParagraph ≠ [] → st.inFrontmatter = false →
    (0 ≤ st.startLine ∧ st.startLine < (i : Int) ∧
     (∀ p ∈ st.paragraphs, p.endLine < st.startLine) ∧
     (NoStyleBetween lines st.startLine (i : Int) →
       st.currentParagraph = sliceList lines st.startLine.toNat i))) ∧
  (st.inFrontmatter = true →
    (st.paragraphs = [] ∧ st.currentParagraph = sliceList lines 0 i ∧
     st.currentParagraph ≠ [] ∧ st.frontmatterStart = 0 ∧ st.startLine = 0 ∧
     st.inCodeBlock = false ∧ 1 ≤ i)) ∧
  (st.inCodeBlock = true → st.currentParagraph ≠ [] ∧ st.inFrontmatter = false) ∧
  (i = 0 → st.startLine = 0 ∧ st.inFrontmatter = false)

end MarkTwo

namespace MarkTwo

/-! Theorems. -/

theorem jsSlice_nat (l : List Paragraph) (i w : Nat) :
    jsSlice l (max 0 ((i : Int) - (w : Int))) (i : Int) = (l.take i).drop (i - w) := by
  unfold jsSlice
  have h1 : ((i : Int)).toNat = i := Int.toNat_natCast i
  have h2 : (max 0 ((i : Int) - (w : Int))).toNat = i - w := by omega
  rw [h1, h2]

theorem intercalate_nil_blank : String.intercalate "\n\n" [] = "" := rfl

/-- C9: `buildContext(paragraphs, index, windowSize)` returns the blank-line
joined contents of the at-most-`windowSize` paragraphs immediately preceding
`index` (the slice `[index − windowSize, index)` of the list, so the paragraph
at `index` and later ones are never included), and returns `""` whenever
`index` is `0` or `windowSize` is `0`. -/
theorem buildContext_spec (paragraphs : List Paragraph) (i w : Nat) :
    buildContext paragraphs (i : Int) (w : Int) =
      String.intercalate "\n\n" (((paragraphs.take i).drop (i - w)).map (fun p => p.content)) ∧
    ((paragraphs.take i).drop (i - w)).length ≤ w ∧
    buildContext paragraphs 0 (w : Int) = "" ∧
    buildContext paragraphs (i : Int) 0 = "" := by
  have hzero : ∀ a b : Int, a ≤ 0 ∨ b ≤ 0 → buildContext paragraphs a b = "" := by
    intro a b h
    unfold buildContext
    rw [if_pos h]
  refine ⟨?_, ?_, hzero 0 w (Or.inl le_rfl), hzero i 0 (Or.inr le_rfl)⟩
  · by_cases hi : i = 0
    · rw [hzero (i : Int) (w : Int) (Or.inl (by omega))]
      rw [hi]
      simp
      exact intercalate_nil_blank.symm
    · by_cases hw : w = 0
      · rw [hzero (i : Int) (w : Int) (Or.inr (by omega))]
        have hnil : (paragraphs.take i).drop (i - w) = [] := by
          apply List.drop_eq_nil_of_le
          have := List.length_take_le i paragraphs
          omega
        rw [hnil]
        simp
        exact intercalate_nil_blank.symm
      · have hi' : 0 < i := Nat.pos_of_ne_zero hi
        have hw' : 0 < w := Nat.pos_of_ne_zero hw
        unfold buildContext
        rw [if_neg (by push_neg; constructor <;> [exact_mod_cast hi'; exact_mod_cast hw'])]
        rw [jsSlice_nat paragraphs i w]
  · have hlen : ((paragraphs.take i).drop (i - w)).length = (paragraphs.take i).length - (i - w) := by
      simp
    have : (paragraphs.take i).length ≤ i := by simp
    omega

theorem paraKey_contains_self {ps : List Paragraph} {p : Paragraph} (hp : p ∈ ps) :
    (ps.map paraKey).contains (paraKey p) = true := by
  rw [List.contains_iff_exists_mem_beq]
  exact ⟨paraKey p, List.mem_map_of_mem paraKey hp, by simp⟩

/-- C10: diffing a paragraph list against itself reports no changes. -/
theorem findChangedParagraphs_self (ps : List Paragraph) :
    findChangedParagraphs ps ps = ⟨[], [], []⟩ := by
  have key_mem : ∀ sub : List Paragraph, (∀ p ∈ sub, p ∈ ps) →
      addedModified ps sub = ([], []) := by
    intro sub
    induction sub with
    | nil => intro _; rfl
    | cons p rest ih =>
      intro h
      have hp : p ∈ ps := h p (List.mem_cons_self _ _)
      have hrest := ih (fun q hq => h q (List.mem_cons_of_mem _ hq))
      unfold addedModified
      rw [hrest]
      simp only [paraKey_contains_self hp, if_true]
  unfold findChangedParagraphs
  rw [key_mem ps (fun _ h => h)]
  have hrem : ps.filter (fun p =>
      !((ps.map paraKey).contains (paraKey p)) &&
      !(ps.any (fun np => (np.startLine - p.startLine).natAbs ≤ 2))) = [] := by
    apply List.filter_eq_nil_iff.mpr
    intro p hp
    simp only [paraKey_contains_self hp, Bool.not_true, Bool.false_and]
    simp
  rw [hrem]

/-- C5 counterexample: with old paragraphs `(0,"B")` and `(1,"C")` and new
paragraph `(1,"B")`, the new paragraph's exact key matches no old paragraph and
an old paragraph within ±2 lines with *different* content exists (`(1,"C")`),
so the claim classifies it modified; the code classifies it added, because the
*first* old paragraph within tolerance (`(0,"B")`) has equal content. -/
theorem c5_counterexample :
    (findChangedParagraphs
        [⟨"B", 0, 0, .text, "o1", false, false, none⟩,
         ⟨"C", 1, 1, .text, "o2", false, false, none⟩]
        [⟨"B", 1, 1, .text, "n1", false, false, none⟩]).added =
      [⟨"B", 1, 1, .text, "n1", false, false, none⟩] ∧
    (findChangedParagraphs
        [⟨"B", 0, 0, .text, "o1", false, false, none⟩,
         ⟨"C", 1, 1, .text, "o2", false, false, none⟩]
        [⟨"B", 1, 1, .text, "n1", false, false, none⟩]).modified = [] ∧
    ¬ (([⟨"B", 0, 0, .text, "o1", false, false, none⟩,
         ⟨"C", 1, 1, .text, "o2", false, false, none⟩].map paraKey).contains
        (paraKey ⟨"B", 1, 1, .text, "n1", false, false, none⟩) = true) ∧
    (∃ o ∈ [(⟨"B", 0, 0, .text, "o1", false, false, none⟩ : Paragraph),
            ⟨"C", 1, 1, .text, "o2", false, false, none⟩],
      (o.startLine - (1 : Int)).natAbs ≤ 2 ∧ o.content ≠ "B") := by
  refine ⟨by decide, by decide, by decide, ?_⟩
  exact ⟨⟨"C", 1, 1, .text, "o2", false, false, none⟩, by decide, by decide, by decide⟩

/-- C5 (amended): a new paragraph whose exact `(startLine, content)` key is
absent from the old side is classified modified exactly when the *first* old
paragraph within ±2 lines of its start line (in old-list order) exists and has
different content, and added otherwise (it is never reported as both); in
particular diffing `old = [(0,"A")]` against `new = [(0,"B")]` yields
`modified = [(0,"B")]` with empty added and removed. -/
theorem c5_amended (oldParagraphs newParagraphs : List Paragraph) :
    (findChangedParagraphs oldParagraphs newParagraphs).added =
      newParagraphs.filter (fun p => isAddedNew oldParagraphs p) ∧
    (findChangedParagraphs oldParagraphs newParagraphs).modified =
      newParagraphs.filter (fun p => isModifiedNew oldParagraphs p) ∧
    findChangedParagraphs
        [⟨"A", 0, 0, .text, "o", false, false, none⟩]
        [⟨"B", 0, 0, .text, "n", false, false, none⟩] =
      ⟨[], [⟨"B", 0, 0, .text, "n", false, false, none⟩], []⟩ := by
  have key : ∀ newPs : List Paragraph,
      addedModified oldParagraphs newPs =
        (newPs.filter (fun p => isAddedNew oldParagraphs p),
         newPs.filter (fun p => isModifiedNew oldParagraphs p)) := by
    intro newPs
    induction newPs with
    | nil => rfl
    | cons p rest ih =>
      unfold addedModified
      rw [ih]
      by_cases hc : (oldParagraphs.map paraKey).contains (paraKey p) = true
      · simp only [hc, if_true]
        have ha : isAddedNew oldParagraphs p = false := by
          unfold isAddedNew
          rw [hc]
          rfl
        have hm : isModifiedNew oldParagraphs p = false := by
          unfold isModifiedNew
          rw [hc]
          rfl
        simp [List.filter_cons, ha, hm]
      · have hc' : (oldParagraphs.map paraKey).contains (paraKey p) = false :=
          Bool.eq_false_iff.mpr hc
        simp only [hc, if_false]
        cases hfind : nearbyOld oldParagraphs p with
        | none =>
          have ha : isAddedNew oldParagraphs p = true := by
            unfold isAddedNew
            rw [hc', hfind]
            rfl
          have hm : isModifiedNew oldParagraphs p = false := by
            unfold isModifiedNew
            rw [hc', hfind]
            rfl
          simp [List.filter_cons, ha, hm]
        | some o =>
          by_cases hco : o.content = p.content
          · have ha : isAddedNew oldParagraphs p = true := by
              unfold isAddedNew
              rw [hc', hfind]
              simp [hco]
            have hm : isModifiedNew oldParagraphs p = false := by
              unfold isModifiedNew
              rw [hc', hfind]
              simp [hco]
            simp [List.filter_cons, ha, hm, hco]
          · have ha : isAddedNew oldParagraphs p = false := by
              unfold isAddedNew
              rw [hc', hfind]
              simp [hco]
            have hm : isModifiedNew oldParagraphs p = true := by
              unfold isModifiedNew
              rw [hc', hfind]
              simp [hco]
            simp [List.filter_cons, ha, hm, hco]
  refine ⟨?_, ?_, by decide⟩
  · unfold findChangedParagraphs
    rw [key newParagraphs]
  · unfold findChangedParagraphs
    rw [key newParagraphs]

theorem find?_map_setFun {α : Type} (m : List (String × α)) (k k' : String) (v : α)
    (h : k' ≠ k) :
    (m.map (fun e => if e.1 = k then (k, v) else e)).find? (fun e => e.1 = k') =
      m.find? (fun e => e.1 = k') := by
  induction m with
  | nil => rfl
  | cons e es ih =>
    by_cases hek : e.1 = k
    · have hek' : ¬(e.1 = k') := by
        rw [hek]
        exact fun hh => h hh.symm
      have hk' : ¬(k = k') := fun hh => h hh.symm
      simp only [List.map_cons, List.find?, if_pos hek]
      simp only [hk', decide_False, hek', ih]
    · simp only [List.map_cons, List.find?, if_neg hek]
      by_cases hek' : e.1 = k'
      · simp [hek']
      · simp only [hek', decide_False, ih]

theorem mapGet_mapSet_self {α : Type} (m : List (String × α)) (k : String) (v : α) :
    mapGet (mapSet m k v) k = some v := by
  unfold mapGet mapSet
  by_cases h : m.any (fun e => e.1 = k)
  · rw [if_pos h]
    induction m with
    | nil => simp at h
    | cons e es ih =>
      by_cases he : e.1 = k
      · simp [List.find?, he]
      · have hes : es.any (fun x => x.1 = k) = true := by
          rcases List.any_eq_true.mp h with ⟨x, hx, hxk⟩
          rcases List.mem_cons.mp hx with rfl | hx'
          · exact absurd (of_decide_eq_true hxk) he
          · exact List.any_eq_true.mpr ⟨x, hx', hxk⟩
        simp only [List.map_cons, List.find?, if_neg he]
        simp only [he, decide_False]
        exact ih hes
  · rw [if_neg h]
    have hnone : m.find? (fun e => e.1 = k) = none := by
      rw [List.find?_eq_none]
      intro x hx
      simp only [decide_eq_true_eq]
      intro hxk
      exact h (List.any_eq_true.mpr ⟨x, hx, by simp [hxk]⟩)
    rw [List.find?_append, hnone]
    simp [List.find?]

theorem mapGet_mapSet_ne {α : Type} (m : List (String × α)) (k k' : String) (v : α)
    (h : k' ≠ k) : mapGet (mapSet m k v) k' = mapGet m k' := by
  unfold mapGet mapSet
  by_cases hany : m.any (fun e => e.1 = k)
  · rw [if_pos hany, find?_map_setFun m k k' v h]
  · rw [if_neg hany, List.find?_append]
    have hsingle : ([(k, v)]).find? (fun e => e.1 = k') = none := by
      rw [List.find?_eq_none]
      intro x hx
      simp only [List.mem_singleton] at hx
      subst hx
      simp only [decide_eq_true_eq]
      exact fun hh => h hh.symm
    rw [hsingle]
    cases m.find? (fun e => e.1 = k') <;> rfl

/-- C6: the keep operation builds its replacement text by splitting the
paragraph's current enhanced text on blank-line runs, prefixing each
remaining (trimmed, non-empty) sub-block with the host-document's keep
directive — the HTML comment notation for non-`.mdx` documents and the JSX
comment notation for `.mdx` — and joining with newlines; in particular the
enhanced text `"X\n\nY"` in an HTML-comment-style document yields
`"<!-- no-enhance -->\nX\n<!-- no-enhance -->\nY"`, and `keepParagraph`
returns exactly this replacement whenever the recorded line range is still
valid (falling back to the original content only for an empty enhanced
text). -/
theorem c6_keep_replacement :
    buildKeepReplacement "X\n\nY" false = "<!-- no-enhance -->\nX\n<!-- no-enhance -->\nY" ∧
    (∀ t : String, buildKeepReplacement t false =
      String.intercalate "\n"
        ((((jsSplitBlankRuns t).map jsTrim).filter (fun p => 0 < p.length)).map
          (fun p => "<!-- no-enhance -->" ++ "\n" ++ p))) ∧
    (∀ t : String, buildKeepReplacement t true =
      String.intercalate "\n"
        ((((jsSplitBlankRuns t).map jsTrim).filter (fun p => 0 < p.length)).map
          (fun p => "\x7b/* no-enhance */\x7d" ++ "\n" ++ p))) ∧
    (∀ (ep : EnhancedParagraph) (n : Int) (mdx ok : Bool) (cache : List (String × Bool)),
      (keepParagraph ep n mdx ok cache).replacement =
        if 0 ≤ ep.original.startLine ∧ 0 ≤ ep.original.endLine ∧ ep.original.endLine < n then
          some (buildKeepReplacement
            (if ep.enhanced = "" then ep.original.content else ep.enhanced) mdx)
        else none) := by
  refine ⟨by decide, fun t => rfl, fun t => rfl, ?_⟩
  intro ep n mdx ok cache
  unfold keepParagraph
  by_cases h : 0 ≤ ep.original.startLine ∧ 0 ≤ ep.original.endLine ∧ ep.original.endLine < n
  · simp only [if_pos h]
  · simp only [if_neg h]

/-- C7 counterexample: on a stale write-back range (recorded end line 5,
document shrunk to 3 lines) the keep operation surfaces an error, but the
paragraph does **not** end up marked kept and the kept-set is untouched —
refuting the claim that the in-memory kept state is set optimistically before
the write is attempted. -/
theorem c7_counterexample :
    (keepParagraph
        ⟨⟨"Hello", 0, 5, .text, "p", false, false, none⟩,
          "Hello", .complete, none, none, false, none⟩ 3 false true []).errorShown = true ∧
    (keepParagraph
        ⟨⟨"Hello", 0, 5, .text, "p", false, false, none⟩,
          "Hello", .complete, none, none, false, none⟩ 3 false true []).para.kept = false ∧
    (keepParagraph
        ⟨⟨"Hello", 0, 5, .text, "p", false, false, none⟩,
          "Hello", .complete, none, none, false, none⟩ 3 false true []).keptParagraphsCache
      = [] := by
  refine ⟨?_, ?_, ?_⟩ <;> decide

/-- C7 (amended): when the recorded line range is no longer valid the failure
is surfaced explicitly (error message shown) and the keep operation exits
*before* touching the in-memory kept state — the paragraph is left unchanged
and the kept-set entry is not written; kept state is committed only after a
valid-range edit attempt, whose boolean result is itself ignored (an edit
that resolves unsuccessfully still marks the paragraph kept). -/
theorem c7_amended (ep : EnhancedParagraph) (n : Int) (mdx ok : Bool)
    (cache : List (String × Bool)) :
    (¬(0 ≤ ep.original.startLine ∧ 0 ≤ ep.original.endLine ∧ ep.original.endLine < n) →
      (keepParagraph ep n mdx ok cache).errorShown = true ∧
      (keepParagraph ep n mdx ok cache).para = ep ∧
      (keepParagraph ep n mdx ok cache).keptParagraphsCache = cache ∧
      (keepParagraph ep n mdx ok cache).editAttempted = false) ∧
    ((0 ≤ ep.original.startLine ∧ 0 ≤ ep.original.endLine ∧ ep.original.endLine < n) →
      (keepParagraph ep n mdx ok cache).para.kept = true ∧
      (keepParagraph ep n mdx ok cache).errorShown = false ∧
      mapGet (keepParagraph ep n mdx ok cache).keptParagraphsCache (fingerprint ep.original)
        = some true ∧
      keepParagraph ep n mdx true cache = keepParagraph ep n mdx false cache) := by
  constructor
  · intro h
    unfold keepParagraph
    rw [if_neg h]
    exact ⟨rfl, rfl, rfl, rfl⟩
  · intro h
    unfold keepParagraph
    simp only [if_pos h]
    refine ⟨?_, ?_, ?_, ?_⟩ <;>
      first
        | trivial
        | exact mapGet_mapSet_self cache _ true

/-- C7 witness: the amended theorem applied at the concrete stale-range keep
above and at a valid-range keep of the same paragraph in a 6-line document. -/
theorem c7_witness :
    ((keepParagraph
        ⟨⟨"Hello", 0, 5, .text, "p", false, false, none⟩,
          "Hello", .complete, none, none, false, none⟩ 3 false true []).errorShown = true ∧
      (keepParagraph
        ⟨⟨"Hello", 0, 5, .text, "p", false, false, none⟩,
          "Hello", .complete, none, none, false, none⟩ 3 false true []).para =
        ⟨⟨"Hello", 0, 5, .text, "p", false, false, none⟩,
          "Hello", .complete, none, none, false, none⟩ ∧
      (keepParagraph
        ⟨⟨"Hello", 0, 5, .text, "p", false, false, none⟩,
          "Hello", .complete, none, none, false, none⟩ 3 false true []).keptParagraphsCache
        = [] ∧
      (keepParagraph
        ⟨⟨"Hello", 0, 5, .text, "p", false, false, none⟩,
          "Hello", .complete, none, none, false, none⟩ 3 false true []).editAttempted
        = false) ∧
    ((keepParagraph
        ⟨⟨"Hello", 0, 5, .text, "p", false, false, none⟩,
          "Hello", .complete, none, none, false, none⟩ 6 false true []).para.kept = true ∧
      (keepParagraph
        ⟨⟨"Hello", 0, 5, .text, "p", false, false, none⟩,
          "Hello", .complete, none, none, false, none⟩ 6 false true []).errorShown = false ∧
      mapGet (keepParagraph
        ⟨⟨"Hello", 0, 5, .text, "p", false, false, none⟩,
          "Hello", .complete, none, none, false, none⟩ 6 false true []).keptParagraphsCache
        (fingerprint ⟨"Hello", 0, 5, .text, "p", false, false, none⟩) = some true ∧
      keepParagraph
        ⟨⟨"Hello", 0, 5, .text, "p", false, false, none⟩,
          "Hello", .complete, none, none, false, none⟩ 6 false true [] =
      keepParagraph
        ⟨⟨"Hello", 0, 5, .text, "p", false, false, none⟩,
          "Hello", .complete, none, none, false, none⟩ 6 false false []) :=
  ⟨(c7_amended ⟨⟨"Hello", 0, 5, .text, "p", false, false, none⟩,
      "Hello", .complete, none, none, false, none⟩ 3 false true []).1 (by decide),
   (c7_amended ⟨⟨"Hello", 0, 5, .text, "p", false, false, none⟩,
      "Hello", .complete, none, none, false, none⟩ 6 false true []).2 (by decide)⟩

theorem processItem_nonpending (svc : EnhancementRequest → Except String EnhanceResult)
    (settings : EnhancementSettings) (docTitle : String) (newParagraphs : List Paragraph)
    (i : Nat) (ep : EnhancedParagraph) (caches : Caches)
    (h : ep.status ≠ EnhancementStatus.pending) :
    processItem svc settings docTitle newParagraphs i ep caches = (ep, caches, none) := by
  unfold processItem
  rw [if_pos h]

theorem processItem_fst_caches (svc : EnhancementRequest → Except String EnhanceResult)
    (settings : EnhancementSettings) (docTitle : String) (newParagraphs : List Paragraph)
    (i : Nat) (ep : EnhancedParagraph) (c1 c2 : Caches) :
    (processItem svc settings docTitle newParagraphs i ep c1).1 =
      (processItem svc settings docTitle newParagraphs i ep c2).1 := by
  unfold processItem
  by_cases h1 : ep.status ≠ EnhancementStatus.pending
  · simp only [if_pos h1]
  · simp only [if_neg h1]
    by_cases h2 : isSkipped ep.original = true
    · simp only [h2, if_true]
    · simp only [Bool.not_eq_true] at h2
      simp only [h2, Bool.false_eq_true, if_false]
      cases svc (buildRequest settings docTitle newParagraphs i ep.original) <;> rfl

theorem processItem_call_caches (svc : EnhancementRequest → Except String EnhanceResult)
    (settings : EnhancementSettings) (docTitle : String) (newParagraphs : List Paragraph)
    (i : Nat) (ep : EnhancedParagraph) (c1 c2 : Caches) :
    (processItem svc settings docTitle newParagraphs i ep c1).2.2 =
      (processItem svc settings docTitle newParagraphs i ep c2).2.2 := by
  unfold processItem
  by_cases h1 : ep.status ≠ EnhancementStatus.pending
  · simp only [if_pos h1]
  · simp only [if_neg h1]
    by_cases h2 : isSkipped ep.original = true
    · simp only [h2, if_true]
    · simp only [Bool.not_eq_true] at h2
      simp only [h2, Bool.false_eq_true, if_false]
      cases svc (buildRequest settings docTitle newParagraphs i ep.original) <;> rfl

theorem processItem_keptCache (svc : EnhancementRequest → Except String EnhanceResult)
    (settings : EnhancementSettings) (docTitle : String) (newParagraphs : List Paragraph)
    (i : Nat) (ep : EnhancedParagraph) (caches : Caches) :
    (processItem svc settings docTitle newParagraphs i ep caches).2.1.keptParagraphsCache =
      caches.keptParagraphsCache := by
  unfold processItem
  by_cases h1 : ep.status ≠ EnhancementStatus.pending
  · simp only [if_pos h1]
  · simp only [if_neg h1]
    by_cases h2 : isSkipped ep.original = true
    · simp only [h2, if_true]
    · simp only [Bool.not_eq_true] at h2
      simp only [h2, Bool.false_eq_true, if_false]
      cases svc (buildRequest settings docTitle newParagraphs i ep.original) <;> rfl

theorem runLoop_cons (svc : EnhancementRequest → Except String EnhanceResult)
    (settings : EnhancementSettings) (docTitle : String) (newParagraphs : List Paragraph)
    (ep : EnhancedParagraph) (rest : List EnhancedParagraph) (i : Nat) (c : Caches)
    (ep1 : EnhancedParagraph) (c1 : Caches) (call1 : Option EnhancementRequest)
    (ro : List EnhancedParagraph) (c2 : Caches) (calls : List (Nat × EnhancementRequest))
    (hp : processItem svc settings docTitle newParagraphs i ep c = (ep1, c1, call1))
    (hr : runLoop svc settings docTitle newParagraphs rest (i + 1) c1 = (ro, c2, calls)) :
    runLoop svc settings docTitle newParagraphs (ep :: rest) i c =
      (ep1 :: ro, c2, call1.elim calls (fun r => (i, r) :: calls)) := by
  simp only [runLoop, hp, hr]
  cases call1 <;> rfl

theorem runLoop_output_get? (svc : EnhancementRequest → Except String EnhanceResult)
    (settings : EnhancementSettings) (docTitle : String) (newParagraphs : List Paragraph) :
    ∀ (eps : List EnhancedParagraph) (i : Nat) (c : Caches) (j : Nat),
      (runLoop svc settings docTitle newParagraphs eps i c).1.get? j =
        (eps.get? j).map
          (fun ep => (processItem svc settings docTitle newParagraphs (i + j) ep emptyCaches).1) := by
  intro eps
  induction eps with
  | nil => intro i c j; simp [runLoop]
  | cons ep rest ih =>
    intro i c j
    rcases hp : processItem svc settings docTitle newParagraphs i ep c with ⟨ep1, c1, call1⟩
    rcases hr : runLoop svc settings docTitle newParagraphs rest (i + 1) c1 with ⟨ro, c2, calls⟩
    rw [runLoop_cons svc settings docTitle newParagraphs ep rest i c ep1 c1 call1 ro c2 calls hp hr]
    cases j with
    | zero =>
      simp only [List.get?_cons_zero, Option.map_some', Nat.add_zero]
      have hfst := processItem_fst_caches svc settings docTitle newParagraphs i ep emptyCaches c
      rw [hp] at hfst
      exact congrArg some hfst.symm
    | succ j' =>
      simp only [List.get?_cons_succ]
      have hrec := ih (i + 1) c1 j'
      rw [hr] at hrec
      rw [show i + (j' + 1) = (i + 1) + j' from by omega]
      exact hrec

theorem runLoop_keptCache (svc : EnhancementRequest → Except String EnhanceResult)
    (settings : EnhancementSettings) (docTitle : String) (newParagraphs : List Paragraph) :
    ∀ (eps : List EnhancedParagraph) (i : Nat) (c : Caches),
      (runLoop svc settings docTitle newParagraphs eps i c).2.1.keptParagraphsCache =
        c.keptParagraphsCache := by
  intro eps
  induction eps with
  | nil => intro i c; rfl
  | cons ep rest ih =>
    intro i c
    rcases hp : processItem svc settings docTitle newParagraphs i ep c with ⟨ep1, c1, call1⟩
    rcases hr : runLoop svc settings docTitle newParagraphs rest (i + 1) c1 with ⟨ro, c2, calls⟩
    rw [runLoop_cons svc settings docTitle newParagraphs ep rest i c ep1 c1 call1 ro c2 calls hp hr]
    have h1 : c1.keptParagraphsCache = c.keptParagraphsCache := by
      have hh := processItem_keptCache svc settings docTitle newParagraphs i ep c
      rw [hp] at hh
      exact hh
    have h2 : c2.keptParagraphsCache = c1.keptParagraphsCache := by
      have hh := ih (i + 1) c1
      rw [hr] at hh
      exact hh
    exact h2.trans h1

theorem runLoop_calls_mem (svc : EnhancementRequest → Except String EnhanceResult)
    (settings : EnhancementSettings) (docTitle : String) (newParagraphs : List Paragraph) :
    ∀ (eps : List EnhancedParagraph) (i : Nat) (c : Caches)
      (x : Nat × EnhancementRequest),
      x ∈ (runLoop svc settings docTitle newParagraphs eps i c).2.2 →
      ∃ (k : Nat) (ep : EnhancedParagraph), eps.get? k = some ep ∧ x.1 = i + k ∧
        (processItem svc settings docTitle newParagraphs (i + k) ep emptyCaches).2.2 = some x.2 := by
  intro eps
  induction eps with
  | nil => intro i c x hx; simp [runLoop] at hx
  | cons ep rest ih =>
    intro i c x hx
    rcases hp : processItem svc settings docTitle newParagraphs i ep c with ⟨ep1, c1, call1⟩
    rcases hr : runLoop svc settings docTitle newParagraphs rest (i + 1) c1 with ⟨ro, c2, calls⟩
    rw [runLoop_cons svc settings docTitle newParagraphs ep rest i c ep1 c1 call1 ro c2 calls hp hr]
      at hx
    have hcall : (processItem svc settings docTitle newParagraphs i ep emptyCaches).2.2 = call1 := by
      have hh := processItem_call_caches svc settings docTitle newParagraphs i ep emptyCaches c
      rw [hp] at hh
      exact hh
    have hrec : x ∈ calls →
        ∃ (k : Nat) (ep' : EnhancedParagraph), rest.get? k = some ep' ∧ x.1 = (i + 1) + k ∧
          (processItem svc settings docTitle newParagraphs ((i + 1) + k) ep' emptyCaches).2.2 =
            some x.2 := by
      intro hxc
      have hh := ih (i + 1) c1 x
      rw [hr] at hh
      exact hh hxc
    cases call1 with
    | none =>
      rcases hrec hx with ⟨k, ep', hget, hfst, hcall'⟩
      exact ⟨k + 1, ep', by simpa using hget, by omega,
        by rw [show i + (k + 1) = (i + 1) + k from by omega]; exact hcall'⟩
    | some r =>
      have hx' : x ∈ (i, r) :: calls := hx
      rcases List.mem_cons.mp hx' with rfl | hxc
      · exact ⟨0, ep, rfl, by omega, by rw [Nat.add_zero]; rw [hcall]⟩
      · rcases hrec hxc with ⟨k, ep', hget, hfst, hcall'⟩
        exact ⟨k + 1, ep', by simpa using hget, by omega,
          by rw [show i + (k + 1) = (i + 1) + k from by omega]; exact hcall'⟩

theorem initEnhanced_kept (caches : Caches) (forceRefresh : Bool) (changes : ChangeResult)
    (para : Paragraph)
    (h : mapGet caches.keptParagraphsCache (hashContent (jsTrim para.content)) = some true) :
    initEnhanced caches forceRefresh changes para =
      { original := para, enhanced := para.content, status := .complete,
        appliedStyle := mapGet caches.appliedStyleCache (hashContent (jsTrim para.content)),
        kept := true } := by
  simp only [initEnhanced]
  rw [h]
  rfl

/-- C3: once a fingerprint is in the kept-set, any `processDocument` pass over
paragraphs containing a paragraph with that fingerprint yields, at that
position, a complete/kept record whose enhanced text is the original content;
no service request is issued for that position, and the pass never modifies
the kept-set (so the immunity persists to all later passes). -/
theorem c3_kept_immune (svc : EnhancementRequest → Except String EnhanceResult)
    (settings : EnhancementSettings) (docTitle : String)
    (prevPs newPs : List Paragraph) (caches : Caches) (forceRefresh : Bool)
    (i : Nat) (p : Paragraph)
    (hp : newPs.get? i = some p)
    (hkept : mapGet caches.keptParagraphsCache (fingerprint p) = some true) :
    (processDocument svc settings docTitle prevPs newPs caches forceRefresh).output.get? i =
      some { original := p, enhanced := p.content, status := .complete,
             appliedStyle := mapGet caches.appliedStyleCache (fingerprint p),
             kept := true } ∧
    (∀ x ∈ (processDocument svc settings docTitle prevPs newPs caches forceRefresh).calls,
      x.1 ≠ i) ∧
    (processDocument svc settings docTitle prevPs newPs caches
        forceRefresh).caches.keptParagraphsCache = caches.keptParagraphsCache := by
  have hout : (processDocument svc settings docTitle prevPs newPs caches forceRefresh).output =
      (runLoop svc settings docTitle newPs
        (newPs.map (initEnhanced caches forceRefresh (findChangedParagraphs prevPs newPs)))
        0 caches).1 := rfl
  have hcalls : (processDocument svc settings docTitle prevPs newPs caches forceRefresh).calls =
      (runLoop svc settings docTitle newPs
        (newPs.map (initEnhanced caches forceRefresh (findChangedParagraphs prevPs newPs)))
        0 caches).2.2 := rfl
  have hcaches : (processDocument svc settings docTitle prevPs newPs caches
        forceRefresh).caches =
      (runLoop svc settings docTitle newPs
        (newPs.map (initEnhanced caches forceRefresh (findChangedParagraphs prevPs newPs)))
        0 caches).2.1 := rfl
  have hinit : (newPs.map
      (initEnhanced caches forceRefresh (findChangedParagraphs prevPs newPs))).get? i =
      some { original := p, enhanced := p.content, status := .complete,
             appliedStyle := mapGet caches.appliedStyleCache (fingerprint p),
             kept := true } := by
    rw [List.get?_map, hp, Option.map_some']
    rw [initEnhanced_kept caches forceRefresh _ p hkept]
    rfl
  refine ⟨?_, ?_, ?_⟩
  · rw [hout, runLoop_output_get?, hinit, Option.map_some']
    rw [processItem_nonpending svc settings docTitle newPs (0 + i) _ emptyCaches (by intro hh; cases hh)]
  · intro x hx
    rw [hcalls] at hx
    rcases runLoop_calls_mem svc settings docTitle newPs _ 0 caches x hx with
      ⟨k, ep', hget, hfst, hcall⟩
    intro hxi
    have hk : k = i := by omega
    subst hk
    rw [hinit] at hget
    have hep := Option.some.inj hget
    rw [← hep] at hcall
    rw [processItem_nonpending svc settings docTitle newPs (0 + k) _ emptyCaches
      (by intro hh; cases hh)] at hcall
    cases hcall
  · rw [hcaches, runLoop_keptCache]

/-- C3 witness: the theorem applied to a concrete one-paragraph document whose
fingerprint is in the kept-set, with an always-failing service. -/
theorem c3_witness :
    (processDocument (fun _ => Except.error "no provider")
        ⟨.expand, 2, 20000, true, "", "", "", true, ["md", "mdx"]⟩ "T" []
        [⟨"Hello", 0, 0, .text, "id0", false, false, none⟩]
        ⟨[], [], [(fingerprint ⟨"Hello", 0, 0, .text, "id0", false, false, none⟩, true)]⟩
        false).output.get? 0 =
      some { original := ⟨"Hello", 0, 0, .text, "id0", false, false, none⟩,
             enhanced := "Hello", status := .complete,
             appliedStyle := mapGet ([] : List (String × EnhancementMode))
               (fingerprint ⟨"Hello", 0, 0, .text, "id0", false, false, none⟩),
             kept := true } ∧
    (∀ x ∈ (processDocument (fun _ => Except.error "no provider")
        ⟨.expand, 2, 20000, true, "", "", "", true, ["md", "mdx"]⟩ "T" []
        [⟨"Hello", 0, 0, .text, "id0", false, false, none⟩]
        ⟨[], [], [(fingerprint ⟨"Hello", 0, 0, .text, "id0", false, false, none⟩, true)]⟩
        false).calls, x.1 ≠ 0) ∧
    (processDocument (fun _ => Except.error "no provider")
        ⟨.expand, 2, 20000, true, "", "", "", true, ["md", "mdx"]⟩ "T" []
        [⟨"Hello", 0, 0, .text, "id0", false, false, none⟩]
        ⟨[], [], [(fingerprint ⟨"Hello", 0, 0, .text, "id0", false, false, none⟩, true)]⟩
        false).caches.keptParagraphsCache =
      [(fingerprint ⟨"Hello", 0, 0, .text, "id0", false, false, none⟩, true)] :=
  c3_kept_immune (fun _ => Except.error "no provider")
    ⟨.expand, 2, 20000, true, "", "", "", true, ["md", "mdx"]⟩ "T" []
    [⟨"Hello", 0, 0, .text, "id0", false, false, none⟩]
    ⟨[], [], [(fingerprint ⟨"Hello", 0, 0, .text, "id0", false, false, none⟩, true)]⟩
    false 0 ⟨"Hello", 0, 0, .text, "id0", false, false, none⟩ (by rfl) (by decide)

theorem initEnhanced_original (caches : Caches) (forceRefresh : Bool) (changes : ChangeResult)
    (para : Paragraph) : (initEnhanced caches forceRefresh changes para).original = para := by
  simp only [initEnhanced]
  split
  · rfl
  · split
    · rfl
    · split
      · rfl
      · rfl

theorem initEnhanced_status (caches : Caches) (forceRefresh : Bool) (changes : ChangeResult)
    (para : Paragraph) :
    (initEnhanced caches forceRefresh changes para).status = EnhancementStatus.pending ∨
    (initEnhanced caches forceRefresh changes para).status = EnhancementStatus.complete := by
  simp only [initEnhanced]
  split
  · right; rfl
  · split
    · right; rfl
    · split
      · left; rfl
      · right; rfl

theorem processItem_resolves (svc : EnhancementRequest → Except String EnhanceResult)
    (settings : EnhancementSettings) (docTitle : String) (newParagraphs : List Paragraph)
    (i : Nat) (ep : EnhancedParagraph) (caches : Caches)
    (h : ep.status = EnhancementStatus.pending ∨ ep.status = EnhancementStatus.complete) :
    (processItem svc settings docTitle newParagraphs i ep caches).1.status =
        EnhancementStatus.complete ∨
    (processItem svc settings docTitle newParagraphs i ep caches).1.status =
        EnhancementStatus.error := by
  by_cases hp : ep.status = EnhancementStatus.pending
  · unfold processItem
    rw [if_neg (by simp [hp])]
    by_cases h2 : isSkipped ep.original = true
    · simp only [h2, if_true]
      left; trivial
    · simp only [Bool.not_eq_true] at h2
      simp only [h2, Bool.false_eq_true, if_false]
      cases svc (buildRequest settings docTitle newParagraphs i ep.original) with
      | ok response => left; trivial
      | error msg => right; trivial
  · rw [processItem_nonpending svc settings docTitle newParagraphs i ep caches hp]
    rcases h with h | h
    · exact absurd h hp
    · left; exact h

theorem processItem_congr_svc (svc1 svc2 : EnhancementRequest → Except String EnhanceResult)
    (settings : EnhancementSettings) (docTitle : String) (newParagraphs : List Paragraph)
    (i : Nat) (ep : EnhancedParagraph) (caches : Caches)
    (h : svc1 (buildRequest settings docTitle newParagraphs i ep.original) =
         svc2 (buildRequest settings docTitle newParagraphs i ep.original)) :
    (processItem svc1 settings docTitle newParagraphs i ep caches).1 =
      (processItem svc2 settings docTitle newParagraphs i ep caches).1 := by
  unfold processItem
  by_cases h1 : ep.status ≠ EnhancementStatus.pending
  · simp only [if_pos h1]
  · simp only [if_neg h1]
    by_cases h2 : isSkipped ep.original = true
    · simp only [h2, if_true]
    · simp only [Bool.not_eq_true] at h2
      simp only [h2, Bool.false_eq_true, if_false]
      rw [h]

theorem processItem_pending_error (svc : EnhancementRequest → Except String EnhanceResult)
    (settings : EnhancementSettings) (docTitle : String) (newParagraphs : List Paragraph)
    (i : Nat) (ep : EnhancedParagraph) (caches : Caches) (msg : String)
    (hp : ep.status = EnhancementStatus.pending)
    (hsk : isSkipped ep.original = false)
    (hsvc : svc (buildRequest settings docTitle newParagraphs i ep.original) =
      Except.error msg) :
    (processItem svc settings docTitle newParagraphs i ep caches).1 =
      { ep with status := .error, error := some msg } := by
  unfold processItem
  rw [if_neg (by simp [hp])]
  simp only [hsk, Bool.false_eq_true, if_false]
  rw [hsvc]

/-- C8: in the enhancement loop a per-paragraph service failure is recorded on
that paragraph alone and the loop continues: (1) after the pass every
published paragraph is complete or error (none is left pending/processing);
(2) the outcome at position `i` depends only on the service's answer to that
position's request, so failures elsewhere never affect it — in particular, for
every subset of failing paragraphs, all other paragraphs are processed exactly
as if no failure had occurred; (3) an eligible pending paragraph whose call
fails ends complete with status error and the failure message, the rest of the
record unchanged. -/
theorem c8_error_isolation (svc1 svc2 : EnhancementRequest → Except String EnhanceResult)
    (settings : EnhancementSettings) (docTitle : String)
    (prevPs P : List Paragraph) (caches : Caches) (fr : Bool) :
    (∀ ep ∈ (processDocument svc1 settings docTitle prevPs P caches fr).output,
      ep.status = EnhancementStatus.complete ∨ ep.status = EnhancementStatus.error) ∧
    (∀ (i : Nat) (p : Paragraph), P.get? i = some p →
      svc1 (buildRequest settings docTitle P i p) = svc2 (buildRequest settings docTitle P i p) →
      (processDocument svc1 settings docTitle prevPs P caches fr).output.get? i =
        (processDocument svc2 settings docTitle prevPs P caches fr).output.get? i) ∧
    (∀ (i : Nat) (p : Paragraph) (msg : String), P.get? i = some p →
      (initEnhanced caches fr (findChangedParagraphs prevPs P) p).status =
        EnhancementStatus.pending →
      isSkipped p = false →
      svc1 (buildRequest settings docTitle P i p) = Except.error msg →
      (processDocument svc1 settings docTitle prevPs P caches fr).output.get? i =
        some { initEnhanced caches fr (findChangedParagraphs prevPs P) p with
               status := .error, error := some msg }) := by
  have hout1 : (processDocument svc1 settings docTitle prevPs P caches fr).output =
      (runLoop svc1 settings docTitle P
        (P.map (initEnhanced caches fr (findChangedParagraphs prevPs P))) 0 caches).1 := rfl
  have hout2 : (processDocument svc2 settings docTitle prevPs P caches fr).output =
      (runLoop svc2 settings docTitle P
        (P.map (initEnhanced caches fr (findChangedParagraphs prevPs P))) 0 caches).1 := rfl
  refine ⟨?_, ?_, ?_⟩
  · intro ep hep
    rcases List.mem_iff_get?.mp hep with ⟨j, hj⟩
    rw [hout1, runLoop_output_get?] at hj
    cases heps : (P.map (initEnhanced caches fr (findChangedParagraphs prevPs P))).get? j with
    | none => rw [heps] at hj; cases hj
    | some ep0 =>
      rw [heps, Option.map_some'] at hj
      have hep0 : ∃ p, P.get? j = some p ∧
          ep0 = initEnhanced caches fr (findChangedParagraphs prevPs P) p := by
        rw [List.get?_map] at heps
        cases hP : P.get? j with
        | none => rw [hP] at heps; cases heps
        | some p =>
          rw [hP, Option.map_some'] at heps
          exact ⟨p, rfl, (Option.some.inj heps).symm⟩
      rcases hep0 with ⟨p, hP, rfl⟩
      have hst := initEnhanced_status caches fr (findChangedParagraphs prevPs P) p
      have hres := processItem_resolves svc1 settings docTitle P (0 + j)
        (initEnhanced caches fr (findChangedParagraphs prevPs P) p) emptyCaches hst
      rw [← Option.some.inj hj]
      exact hres
  · intro i p hP hsvc
    rw [hout1, hout2, runLoop_output_get?, runLoop_output_get?]
    rw [List.get?_map, hP, Option.map_some', Option.map_some', Option.map_some']
    have horig : (initEnhanced caches fr (findChangedParagraphs prevPs P) p).original = p :=
      initEnhanced_original caches fr (findChangedParagraphs prevPs P) p
    have := processItem_congr_svc svc1 svc2 settings docTitle P (0 + i)
      (initEnhanced caches fr (findChangedParagraphs prevPs P) p) emptyCaches
      (by rw [horig, Nat.zero_add, hsvc])
    exact congrArg some this
  · intro i p msg hP hpend hsk hsvc
    rw [hout1, runLoop_output_get?]
    rw [List.get?_map, hP, Option.map_some', Option.map_some']
    have horig : (initEnhanced caches fr (findChangedParagraphs prevPs P) p).original = p :=
      initEnhanced_original caches fr (findChangedParagraphs prevPs P) p
    have := processItem_pending_error svc1 settings docTitle P (0 + i)
      (initEnhanced caches fr (findChangedParagraphs prevPs P) p) emptyCaches msg hpend
      (by rw [horig]; exact hsk) (by rw [horig, Nat.zero_add]; exact hsvc)
    exact congrArg some this

/-- C8 witness: the theorem applied to a concrete one-paragraph document with
an always-failing service: the pass completes, the position is unaffected by
replacing the service with an identically-answering one, and the paragraph
ends in status error carrying the message. -/
theorem c8_witness :
    ((processDocument (fun _ => Except.error "boom")
        ⟨.expand, 2, 20000, true, "", "", "", true, ["md", "mdx"]⟩ "T" []
        [⟨"Hello", 0, 0, .text, "id0", false, false, none⟩] emptyCaches false).output.get? 0 =
      some { initEnhanced emptyCaches false
               (findChangedParagraphs [] [⟨"Hello", 0, 0, .text, "id0", false, false, none⟩])
               ⟨"Hello", 0, 0, .text, "id0", false, false, none⟩ with
             status := .error, error := some "boom" }) ∧
    (∀ ep ∈ (processDocument (fun _ => Except.error "boom")
        ⟨.expand, 2, 20000, true, "", "", "", true, ["md", "mdx"]⟩ "T" []
        [⟨"Hello", 0, 0, .text, "id0", false, false, none⟩] emptyCaches false).output,
      ep.status = EnhancementStatus.complete ∨ ep.status = EnhancementStatus.error) :=
  ⟨(c8_error_isolation (fun _ => Except.error "boom") (fun _ => Except.error "boom")
      ⟨.expand, 2, 20000, true, "", "", "", true, ["md", "mdx"]⟩ "T" []
      [⟨"Hello", 0, 0, .text, "id0", false, false, none⟩] emptyCaches false).2.2
    0 ⟨"Hello", 0, 0, .text, "id0", false, false, none⟩ "boom" rfl (by decide) (by decide) rfl,
   (c8_error_isolation (fun _ => Except.error "boom") (fun _ => Except.error "boom")
      ⟨.expand, 2, 20000, true, "", "", "", true, ["md", "mdx"]⟩ "T" []
      [⟨"Hello", 0, 0, .text, "id0", false, false, none⟩] emptyCaches false).1⟩

theorem initEnhanced_cachehit (caches : Caches) (changes : ChangeResult) (para : Paragraph)
    (cached : CacheEntry)
    (hk : ¬((mapGet caches.keptParagraphsCache
        (hashContent (jsTrim para.content))).getD false = true))
    (hc : mapGet caches.enhancedCache (hashContent (jsTrim para.content)) = some cached) :
    initEnhanced caches false changes para =
      { original := para, enhanced := cached.enhanced, status := .complete,
        appliedStyle := mapGet caches.appliedStyleCache (hashContent (jsTrim para.content)),
        suggestions := cached.suggestions } := by
  simp only [initEnhanced]
  rw [if_neg hk]
  simp only [Bool.false_eq_true, if_false, hc]

theorem initEnhanced_pending (caches : Caches) (changes : ChangeResult) (para : Paragraph)
    (hk : ¬((mapGet caches.keptParagraphsCache
        (hashContent (jsTrim para.content))).getD false = true))
    (hc : mapGet caches.enhancedCache (hashContent (jsTrim para.content)) = none) :
    initEnhanced caches false changes para =
      { original := para, enhanced := para.content, status := .pending,
        appliedStyle := mapGet caches.appliedStyleCache (hashContent (jsTrim para.content)) } := by
  simp only [initEnhanced]
  rw [if_neg hk]
  simp only [Bool.false_eq_true, if_false, hc]
  rw [if_pos]
  simp [hc]

theorem processItem_skipped (svc : EnhancementRequest → Except String EnhanceResult)
    (settings : EnhancementSettings) (docTitle : String) (newParagraphs : List Paragraph)
    (i : Nat) (ep : EnhancedParagraph) (caches : Caches)
    (hp : ep.status = EnhancementStatus.pending)
    (hsk : isSkipped ep.original = true) :
    processItem svc settings docTitle newParagraphs i ep caches =
      ({ ep with status := .complete }, caches, none) := by
  unfold processItem
  rw [if_neg (by simp [hp])]
  simp only [hsk, if_true]

theorem processItem_ok (svc : EnhancementRequest → Except String EnhanceResult)
    (settings : EnhancementSettings) (docTitle : String) (newParagraphs : List Paragraph)
    (i : Nat) (ep : EnhancedParagraph) (caches : Caches) (response : EnhanceResult)
    (hp : ep.status = EnhancementStatus.pending)
    (hsk : isSkipped ep.original = false)
    (hsvc : svc (buildRequest settings docTitle newParagraphs i ep.original) =
      Except.ok response) :
    processItem svc settings docTitle newParagraphs i ep caches =
      ({ ep with
          enhanced := response.enhanced,
          status := .complete,
          appliedStyle := some (ep.original.styleOverride.getD settings.enhancementMode),
          suggestions :=
            match response.suggestions with
            | some s => if 0 < s.length then some s else ep.suggestions
            | none => ep.suggestions },
        { caches with
          enhancedCache :=
            mapSet caches.enhancedCache (hashContent (jsTrim ep.original.content))
              ⟨response.enhanced, response.suggestions⟩,
          appliedStyleCache :=
            mapSet caches.appliedStyleCache (hashContent (jsTrim ep.original.content))
              (ep.original.styleOverride.getD settings.enhancementMode) },
        some (buildRequest settings docTitle newParagraphs i ep.original)) := by
  unfold processItem
  rw [if_neg (by simp [hp])]
  simp only [hsk, Bool.false_eq_true, if_false]
  rw [hsvc]

theorem processItem_error_full (svc : EnhancementRequest → Except String EnhanceResult)
    (settings : EnhancementSettings) (docTitle : String) (newParagraphs : List Paragraph)
    (i : Nat) (ep : EnhancedParagraph) (caches : Caches) (msg : String)
    (hp : ep.status = EnhancementStatus.pending)
    (hsk : isSkipped ep.original = false)
    (hsvc : svc (buildRequest settings docTitle newParagraphs i ep.original) =
      Except.error msg) :
    processItem svc settings docTitle newParagraphs i ep caches =
      ({ ep with status := .error, error := some msg }, caches,
        some (buildRequest settings docTitle newParagraphs i ep.original)) := by
  unfold processItem
  rw [if_neg (by simp [hp])]
  simp only [hsk, Bool.false_eq_true, if_false]
  rw [hsvc]

theorem processItem_cacheGet_ne (svc : EnhancementRequest → Except String EnhanceResult)
    (settings : EnhancementSettings) (docTitle : String) (newParagraphs : List Paragraph)
    (i : Nat) (ep : EnhancedParagraph) (caches : Caches) (h : String)
    (hne : h ≠ hashContent (jsTrim ep.original.content)) :
    mapGet (processItem svc settings docTitle newParagraphs i ep caches).2.1.enhancedCache h =
      mapGet caches.enhancedCache h ∧
    mapGet (processItem svc settings docTitle newParagraphs i ep caches).2.1.appliedStyleCache h =
      mapGet caches.appliedStyleCache h := by
  unfold processItem
  by_cases h1 : ep.status ≠ EnhancementStatus.pending
  · simp only [if_pos h1]
    constructor <;> trivial
  · simp only [if_neg h1]
    by_cases h2 : isSkipped ep.original = true
    · simp only [h2, if_true]
      constructor <;> trivial
    · simp only [Bool.not_eq_true] at h2
      simp only [h2, Bool.false_eq_true, if_false]
      cases svc (buildRequest settings docTitle newParagraphs i ep.original) with
      | ok response =>
        exact ⟨mapGet_mapSet_ne _ _ _ _ hne, mapGet_mapSet_ne _ _ _ _ hne⟩
      | error msg => constructor <;> trivial

theorem processItem_cacheGet_stable (svc : EnhancementRequest → Except String EnhanceResult)
    (settings : EnhancementSettings) (docTitle : String) (newParagraphs : List Paragraph)
    (i : Nat) (ep : EnhancedParagraph) (c1 c2 : Caches) (h : String)
    (he : mapGet c1.enhancedCache h = mapGet c2.enhancedCache h)
    (hs : mapGet c1.appliedStyleCache h = mapGet c2.appliedStyleCache h) :
    mapGet (processItem svc settings docTitle newParagraphs i ep c1).2.1.enhancedCache h =
      mapGet (processItem svc settings docTitle newParagraphs i ep c2).2.1.enhancedCache h ∧
    mapGet (processItem svc settings docTitle newParagraphs i ep c1).2.1.appliedStyleCache h =
      mapGet (processItem svc settings docTitle newParagraphs i ep c2).2.1.appliedStyleCache h := by
  unfold processItem
  by_cases h1 : ep.status ≠ EnhancementStatus.pending
  · simp only [if_pos h1]
    exact ⟨he, hs⟩
  · simp only [if_neg h1]
    by_cases h2 : isSkipped ep.original = true
    · simp only [h2, if_true]
      exact ⟨he, hs⟩
    · simp only [Bool.not_eq_true] at h2
      simp only [h2, Bool.false_eq_true, if_false]
      cases svc (buildRequest settings docTitle newParagraphs i ep.original) with
      | ok response =>
        by_cases hh : h = hashContent (jsTrim ep.original.content)
        · subst hh
          constructor
          · rw [mapGet_mapSet_self, mapGet_mapSet_self]
          · rw [mapGet_mapSet_self, mapGet_mapSet_self]
        · constructor
          · rw [mapGet_mapSet_ne _ _ _ _ hh, mapGet_mapSet_ne _ _ _ _ hh]
            exact he
          · rw [mapGet_mapSet_ne _ _ _ _ hh, mapGet_mapSet_ne _ _ _ _ hh]
            exact hs
      | error msg => exact ⟨he, hs⟩

theorem runLoop_cacheGet_all_ne (svc : EnhancementRequest → Except String EnhanceResult)
    (settings : EnhancementSettings) (docTitle : String) (newParagraphs : List Paragraph) :
    ∀ (eps : List EnhancedParagraph) (i : Nat) (c : Caches) (h : String),
      (∀ (k : Nat) (ep : EnhancedParagraph), eps.get? k = some ep →
        hashContent (jsTrim ep.original.content) ≠ h) →
      mapGet (runLoop svc settings docTitle newParagraphs eps i c).2.1.enhancedCache h =
        mapGet c.enhancedCache h ∧
      mapGet (runLoop svc settings docTitle newParagraphs eps i c).2.1.appliedStyleCache h =
        mapGet c.appliedStyleCache h := by
  intro eps
  induction eps with
  | nil => intro i c h _; exact ⟨rfl, rfl⟩
  | cons ep rest ih =>
    intro i c h hall
    rcases hp : processItem svc settings docTitle newParagraphs i ep c with ⟨ep1, c1, call1⟩
    rcases hr : runLoop svc settings docTitle newParagraphs rest (i + 1) c1 with ⟨ro, c2, calls⟩
    rw [runLoop_cons svc settings docTitle newParagraphs ep rest i c ep1 c1 call1 ro c2 calls hp hr]
    have hhead : hashContent (jsTrim ep.original.content) ≠ h := hall 0 ep rfl
    have h1 := processItem_cacheGet_ne svc settings docTitle newParagraphs i ep c h
      (fun hh => hhead hh.symm)
    rw [hp] at h1
    have h2 := ih (i + 1) c1 h (fun k ep' hk => hall (k + 1) ep' (by simpa using hk))
    rw [hr] at h2
    exact ⟨h2.1.trans h1.1, h2.2.trans h1.2⟩

theorem runLoop_cacheGet_at (svc : EnhancementRequest → Except String EnhanceResult)
    (settings : EnhancementSettings) (docTitle : String) (newParagraphs : List Paragraph) :
    ∀ (eps : List EnhancedParagraph) (i : Nat) (c : Caches) (h : String)
      (k0 : Nat) (ep0 : EnhancedParagraph),
      eps.get? k0 = some ep0 →
      (∀ (k : Nat) (ep : EnhancedParagraph), k ≠ k0 → eps.get? k = some ep →
        hashContent (jsTrim ep.original.content) ≠ h) →
      mapGet (runLoop svc settings docTitle newParagraphs eps i c).2.1.enhancedCache h =
        mapGet (processItem svc settings docTitle newParagraphs (i + k0) ep0 c).2.1.enhancedCache
          h ∧
      mapGet (runLoop svc settings docTitle newParagraphs eps i c).2.1.appliedStyleCache h =
        mapGet (processItem svc settings docTitle newParagraphs
          (i + k0) ep0 c).2.1.appliedStyleCache h := by
  intro eps
  induction eps with
  | nil => intro i c h k0 ep0 hk0; cases hk0
  | cons ep rest ih =>
    intro i c h k0 ep0 hk0 hothers
    rcases hp : processItem svc settings docTitle newParagraphs i ep c with ⟨ep1, c1, call1⟩
    rcases hr : runLoop svc settings docTitle newParagraphs rest (i + 1) c1 with ⟨ro, c2, calls⟩
    rw [runLoop_cons svc settings docTitle newParagraphs ep rest i c ep1 c1 call1 ro c2 calls hp hr]
    cases k0 with
    | zero =>
      have hep0 : ep0 = ep := (Option.some.inj hk0).symm
      subst hep0
      have hrest := runLoop_cacheGet_all_ne svc settings docTitle newParagraphs rest (i + 1) c1 h
        (fun k ep' hk => hothers (k + 1) ep' (Nat.succ_ne_zero k) (by simpa using hk))
      rw [hr] at hrest
      rw [Nat.add_zero]
      rw [hp]
      exact hrest
    | succ k' =>
      have hrec := ih (i + 1) c1 h k' ep0 (by simpa using hk0)
        (fun k ep' hk hkk => hothers (k + 1) ep' (by omega) (by simpa using hkk))
      rw [hr] at hrec
      have hhead : hashContent (jsTrim ep.original.content) ≠ h :=
        hothers 0 ep (by omega) rfl
      have hc1 := processItem_cacheGet_ne svc settings docTitle newParagraphs i ep c h
        (fun hh => hhead hh.symm)
      rw [hp] at hc1
      have hstable := processItem_cacheGet_stable svc settings docTitle newParagraphs
        ((i + 1) + k') ep0 c1 c h hc1.1 hc1.2
      rw [show i + (k' + 1) = (i + 1) + k' from by omega]
      exact ⟨hrec.1.trans hstable.1, hrec.2.trans hstable.2⟩

theorem nodup_fingerprint_ne (P : List Paragraph) (i k : Nat) (p q : Paragraph)
    (hnodup : (P.map fingerprint).Nodup)
    (hi : P.get? i = some p) (hk : P.get? k = some q) (hne : k ≠ i) :
    fingerprint q ≠ fingerprint p := by
  intro heq
  have hmi : (P.map fingerprint).get? i = some (fingerprint p) := by
    rw [List.get?_map, hi, Option.map_some']
  have hmk : (P.map fingerprint).get? k = some (fingerprint q) := by
    rw [List.get?_map, hk, Option.map_some']
  have hki : k < (P.map fingerprint).length := by
    have := List.get?_eq_some.mp hmk
    rcases this with ⟨hlt, _⟩
    exact hlt
  have : k = i := by
    apply List.get?_inj hki hnodup
    rw [hmk, hmi, heq]
  exact hne this

theorem getD_false_eq_true {o : Option Bool} (h : o.getD false = true) : o = some true := by
  cases o with
  | none => simp at h
  | some b =>
    cases b with
    | false => simp at h
    | true => rfl

theorem c4_index (svc : EnhancementRequest → Except String EnhanceResult)
    (settings : EnhancementSettings) (docTitle : String)
    (prev P1 P2 : List Paragraph) (caches0 : Caches)
    (i : Nat) (p1 p2 : Paragraph)
    (hp1 : P1.get? i = some p1) (hp2 : P2.get? i = some p2)
    (hstrip : stripId p2 = stripId p1)
    (hnodup : (P1.map fingerprint).Nodup)
    (hnoterr : (processItem svc settings docTitle P1 (0 + i)
      (initEnhanced caches0 false (findChangedParagraphs prev P1) p1)
      emptyCaches).1.status ≠ EnhancementStatus.error)
    (hsugg : ∀ req res, svc req = Except.ok res →
      res.suggestions ≠ some ([] : List Suggestion)) :
    stripEId ((processItem svc settings docTitle P2 (0 + i)
        (initEnhanced
          (runLoop svc settings docTitle P1
            (P1.map (initEnhanced caches0 false (findChangedParagraphs prev P1))) 0 caches0).2.1
          false (findChangedParagraphs P1 P2) p2) emptyCaches).1) =
      stripEId ((processItem svc settings docTitle P1 (0 + i)
        (initEnhanced caches0 false (findChangedParagraphs prev P1) p1) emptyCaches).1) ∧
    (processItem svc settings docTitle P2 (0 + i)
        (initEnhanced
          (runLoop svc settings docTitle P1
            (P1.map (initEnhanced caches0 false (findChangedParagraphs prev P1))) 0 caches0).2.1
          false (findChangedParagraphs P1 P2) p2) emptyCaches).2.2 = none := by
  set changes1 := findChangedParagraphs prev P1 with hchanges1def
  set init1 := initEnhanced caches0 false changes1 with hinit1def
  set eps1 := P1.map init1 with heps1def
  set caches1 := (runLoop svc settings docTitle P1 eps1 0 caches0).2.1 with hcaches1def
  set changes2 := findChangedParagraphs P1 P2 with hchanges2def
  set init2 := initEnhanced caches1 false changes2 with hinit2def
  have hcontent : p2.content = p1.content := by
    have hh := congrArg Paragraph.content hstrip
    simpa [stripId] using hh
  have htype : p2.type = p1.type := by
    have hh := congrArg Paragraph.type hstrip
    simpa [stripId] using hh
  have hign : p2.ignore = p1.ignore := by
    have hh := congrArg Paragraph.ignore hstrip
    simpa [stripId] using hh
  have hnoe : p2.noEnhance = p1.noEnhance := by
    have hh := congrArg Paragraph.noEnhance hstrip
    simpa [stripId] using hh
  have hsty : p2.styleOverride = p1.styleOverride := by
    have hh := congrArg Paragraph.styleOverride hstrip
    simpa [stripId] using hh
  have hh2 : hashContent (jsTrim p2.content) = hashContent (jsTrim p1.content) := by
    rw [hcontent]
  have hskipeq : isSkipped p2 = isSkipped p1 := by
    unfold isSkipped
    rw [htype, hign, hnoe]
  have horig1 : (init1 p1).original = p1 := initEnhanced_original caches0 false changes1 p1
  have horig2 : (init2 p2).original = p2 := initEnhanced_original caches1 false changes2 p2
  have hkeptc : caches1.keptParagraphsCache = caches0.keptParagraphsCache :=
    runLoop_keptCache svc settings docTitle P1 eps1 0 caches0
  have heps1i : eps1.get? i = some (init1 p1) := by
    rw [heps1def, List.get?_map, hp1, Option.map_some']
  have hothers : ∀ (k : Nat) (ep : EnhancedParagraph), k ≠ i → eps1.get? k = some ep →
      hashContent (jsTrim ep.original.content) ≠ hashContent (jsTrim p1.content) := by
    intro k ep hki hk
    rw [heps1def, List.get?_map] at hk
    cases hq : P1.get? k with
    | none => rw [hq] at hk; cases hk
    | some q =>
      rw [hq, Option.map_some'] at hk
      have hepq : init1 q = ep := Option.some.inj hk
      have horigq : ep.original = q := by
        rw [← hepq]
        exact initEnhanced_original caches0 false changes1 q
      rw [horigq]
      exact nodup_fingerprint_ne P1 i k p1 q hnodup hp1 hq hki
  have hat := runLoop_cacheGet_at svc settings docTitle P1 eps1 0 caches0
    (hashContent (jsTrim p1.content)) i (init1 p1) heps1i hothers
  by_cases hkept : (mapGet caches0.keptParagraphsCache
      (hashContent (jsTrim p1.content))).getD false = true
  · -- run-1 paragraph is kept
    have hkeptsome := getD_false_eq_true hkept
    have hinit1eq : init1 p1 =
        { original := p1, enhanced := p1.content, status := .complete,
          appliedStyle := mapGet caches0.appliedStyleCache (hashContent (jsTrim p1.content)),
          kept := true } :=
      initEnhanced_kept caches0 false changes1 p1 hkeptsome
    have hnp1 : (init1 p1).status ≠ EnhancementStatus.pending := by
      rw [hinit1eq]
      intro hh
      cases hh
    have hitem1c := processItem_nonpending svc settings docTitle P1 (0 + i) (init1 p1)
      caches0 hnp1
    have hitem1e := processItem_nonpending svc settings docTitle P1 (0 + i) (init1 p1)
      emptyCaches hnp1
    have hcachesE : mapGet caches1.enhancedCache (hashContent (jsTrim p1.content)) =
        mapGet caches0.enhancedCache (hashContent (jsTrim p1.content)) := by
      rw [hat.1, hitem1c]
    have hcachesS : mapGet caches1.appliedStyleCache (hashContent (jsTrim p1.content)) =
        mapGet caches0.appliedStyleCache (hashContent (jsTrim p1.content)) := by
      rw [hat.2, hitem1c]
    have hkept2 : mapGet caches1.keptParagraphsCache (hashContent (jsTrim p2.content)) =
        some true := by
      rw [hh2, hkeptc]
      exact hkeptsome
    have hinit2eq : init2 p2 =
        { original := p2, enhanced := p2.content, status := .complete,
          appliedStyle := mapGet caches1.appliedStyleCache (hashContent (jsTrim p2.content)),
          kept := true } :=
      initEnhanced_kept caches1 false changes2 p2 hkept2
    have hnp2 : (init2 p2).status ≠ EnhancementStatus.pending := by
      rw [hinit2eq]
      intro hh
      cases hh
    have hitem2 := processItem_nonpending svc settings docTitle P2 (0 + i) (init2 p2)
      emptyCaches hnp2
    constructor
    · rw [hitem2, hitem1e]
      rw [hinit1eq, hinit2eq]
      rw [hh2, hcachesS, hcontent]
      simp only [stripEId]
      rw [hstrip]
    · rw [hitem2]
  · -- run-1 paragraph is not kept
    have hkept2n : ¬((mapGet caches1.keptParagraphsCache
        (hashContent (jsTrim p2.content))).getD false = true) := by
      rw [hh2, hkeptc]
      exact hkept
    cases hmc : mapGet caches0.enhancedCache (hashContent (jsTrim p1.content)) with
    | some cached =>
      -- run-1 cache hit
      have hinit1eq : init1 p1 =
          { original := p1, enhanced := cached.enhanced, status := .complete,
            appliedStyle := mapGet caches0.appliedStyleCache (hashContent (jsTrim p1.content)),
            suggestions := cached.suggestions } :=
        initEnhanced_cachehit caches0 changes1 p1 cached hkept hmc
      have hnp1 : (init1 p1).status ≠ EnhancementStatus.pending := by
        rw [hinit1eq]
        intro hh
        cases hh
      have hitem1c := processItem_nonpending svc settings docTitle P1 (0 + i) (init1 p1)
        caches0 hnp1
      have hitem1e := processItem_nonpending svc settings docTitle P1 (0 + i) (init1 p1)
        emptyCaches hnp1
      have hcachesE : mapGet caches1.enhancedCache (hashContent (jsTrim p1.content)) =
          some cached := by
        rw [hat.1, hitem1c]
        exact hmc
      have hcachesS : mapGet caches1.appliedStyleCache (hashContent (jsTrim p1.content)) =
          mapGet caches0.appliedStyleCache (hashContent (jsTrim p1.content)) := by
        rw [hat.2, hitem1c]
      have hinit2eq : init2 p2 =
          { original := p2, enhanced := cached.enhanced, status := .complete,
            appliedStyle := mapGet caches1.appliedStyleCache (hashContent (jsTrim p2.content)),
            suggestions := cached.suggestions } :=
        initEnhanced_cachehit caches1 changes2 p2 cached hkept2n (by rw [hh2]; exact hcachesE)
      have hnp2 : (init2 p2).status ≠ EnhancementStatus.pending := by
        rw [hinit2eq]
        intro hh
        cases hh
      have hitem2 := processItem_nonpending svc settings docTitle P2 (0 + i) (init2 p2)
        emptyCaches hnp2
      constructor
      · rw [hitem2, hitem1e]
        rw [hinit1eq, hinit2eq]
        rw [hh2, hcachesS]
        simp only [stripEId]
        rw [hstrip]
      · rw [hitem2]
    | none =>
      -- run-1 cache miss: the paragraph is pending
      have hinit1eq : init1 p1 =
          { original := p1, enhanced := p1.content, status := .pending,
            appliedStyle := mapGet caches0.appliedStyleCache (hashContent (jsTrim p1.content)) } :=
        initEnhanced_pending caches0 changes1 p1 hkept hmc
      have hpend1 : (init1 p1).status = EnhancementStatus.pending := by
        rw [hinit1eq]
      by_cases hsk : isSkipped p1 = true
      · -- skipped paragraph: completed without a call, no cache writes
        have hsk1 : isSkipped (init1 p1).original = true := by
          rw [horig1]
          exact hsk
        have hitem1c := processItem_skipped svc settings docTitle P1 (0 + i) (init1 p1)
          caches0 hpend1 hsk1
        have hitem1e := processItem_skipped svc settings docTitle P1 (0 + i) (init1 p1)
          emptyCaches hpend1 hsk1
        have hcachesE : mapGet caches1.enhancedCache (hashContent (jsTrim p1.content)) =
            none := by
          rw [hat.1, hitem1c]
          exact hmc
        have hcachesS : mapGet caches1.appliedStyleCache (hashContent (jsTrim p1.content)) =
            mapGet caches0.appliedStyleCache (hashContent (jsTrim p1.content)) := by
          rw [hat.2, hitem1c]
        have hinit2eq : init2 p2 =
            { original := p2, enhanced := p2.content, status := .pending,
              appliedStyle :=
                mapGet caches1.appliedStyleCache (hashContent (jsTrim p2.content)) } :=
          initEnhanced_pending caches1 changes2 p2 hkept2n (by rw [hh2]; exact hcachesE)
        have hpend2 : (init2 p2).status = EnhancementStatus.pending := by
          rw [hinit2eq]
        have hsk2 : isSkipped (init2 p2).original = true := by
          rw [horig2, hskipeq]
          exact hsk
        have hitem2 := processItem_skipped svc settings docTitle P2 (0 + i) (init2 p2)
          emptyCaches hpend2 hsk2
        constructor
        · rw [hitem2, hitem1e]
          rw [hinit1eq, hinit2eq]
          rw [hh2, hcachesS, hcontent]
          simp only [stripEId]
          rw [hstrip]
        · rw [hitem2]
      · -- enhanced through the service in run 1
        have hsk1 : isSkipped (init1 p1).original = false := by
          rw [horig1]
          exact Bool.eq_false_iff.mpr hsk
        cases hres : svc (buildRequest settings docTitle P1 (0 + i) (init1 p1).original) with
        | error msg =>
          exfalso
          apply hnoterr
          have hfull := processItem_error_full svc settings docTitle P1 (0 + i) (init1 p1)
            emptyCaches msg hpend1 hsk1 hres
          rw [hfull]
        | ok resp =>
          have hsuggne := hsugg _ resp hres
          have hitem1c := processItem_ok svc settings docTitle P1 (0 + i) (init1 p1)
            caches0 resp hpend1 hsk1 hres
          have hitem1e := processItem_ok svc settings docTitle P1 (0 + i) (init1 p1)
            emptyCaches resp hpend1 hsk1 hres
          rw [horig1] at hitem1c hitem1e
          have hcachesE : mapGet caches1.enhancedCache (hashContent (jsTrim p1.content)) =
              some ⟨resp.enhanced, resp.suggestions⟩ := by
            rw [hat.1, hitem1c]
            exact mapGet_mapSet_self _ _ _
          have hcachesS : mapGet caches1.appliedStyleCache (hashContent (jsTrim p1.content)) =
              some (p1.styleOverride.getD settings.enhancementMode) := by
            rw [hat.2, hitem1c]
            exact mapGet_mapSet_self _ _ _
          have hinit2eq : init2 p2 =
              { original := p2, enhanced := resp.enhanced, status := .complete,
                appliedStyle :=
                  mapGet caches1.appliedStyleCache (hashContent (jsTrim p2.content)),
                suggestions := resp.suggestions } :=
            initEnhanced_cachehit caches1 changes2 p2 ⟨resp.enhanced, resp.suggestions⟩ hkept2n
              (by rw [hh2]; exact hcachesE)
          have hnp2 : (init2 p2).status ≠ EnhancementStatus.pending := by
            rw [hinit2eq]
            intro hh
            cases hh
          have hitem2 := processItem_nonpending svc settings docTitle P2 (0 + i) (init2 p2)
            emptyCaches hnp2
          constructor
          · rw [hitem2, hitem1e]
            rw [hinit2eq, hinit1eq]
            rw [hh2, hcachesS]
            simp only [stripEId]
            rw [hstrip]
            cases hrs : resp.suggestions with
            | none => simp
            | some s =>
              cases s with
              | nil => exact absurd hrs hsuggne
              | cons a as => simp
          · rw [hitem2]

/-- C4 counterexample: when the (single) paragraph's enhancement fails on the
first run, nothing is cached for it, so the second `processDocument` run over
the unchanged document classifies it pending again and calls the external
service again — refuting 'zero new calls on the second run'. -/
theorem c4_counterexample :
    (processDocument (fun _ => Except.error "fail")
        ⟨.expand, 2, 20000, true, "", "", "", true, ["md", "mdx"]⟩ "T"
        [⟨"Hello", 0, 0, .text, "id0", false, false, none⟩]
        [⟨"Hello", 0, 0, .text, "id0", false, false, none⟩]
        (processDocument (fun _ => Except.error "fail")
          ⟨.expand, 2, 20000, true, "", "", "", true, ["md", "mdx"]⟩ "T" []
          [⟨"Hello", 0, 0, .text, "id0", false, false, none⟩] emptyCaches false).caches
        false).calls ≠ [] := by decide

/-- C4 (amended): provided the first run left no paragraph in error status, no
two paragraphs of the document share a content fingerprint, and the service
never reports an empty suggestion list (the response parser returns no
suggestions field instead — as `parseCombinedResponse` guarantees), re-running
`processDocument` with `forceRefresh = false` over the unchanged document
(whose re-extracted paragraphs differ only in their freshly generated ids)
makes zero new service calls and produces output identical to the first run's
final output up to those paragraph ids. -/
theorem c4_amended (svc : EnhancementRequest → Except String EnhanceResult)
    (settings : EnhancementSettings) (docTitle : String)
    (prev P1 P2 : List Paragraph) (caches0 : Caches)
    (hids : P2.map stripId = P1.map stripId)
    (hnodup : (P1.map fingerprint).Nodup)
    (hnoerr : ∀ ep ∈ (processDocument svc settings docTitle prev P1 caches0 false).output,
      ep.status ≠ EnhancementStatus.error)
    (hsugg : ∀ req res, svc req = Except.ok res →
      res.suggestions ≠ some ([] : List Suggestion)) :
    (processDocument svc settings docTitle P1 P2
        (processDocument svc settings docTitle prev P1 caches0 false).caches false).calls = [] ∧
    (processDocument svc settings docTitle P1 P2
        (processDocument svc settings docTitle prev P1 caches0 false).caches
        false).output.map stripEId =
      (processDocument svc settings docTitle prev P1 caches0 false).output.map stripEId := by
  have hpair : ∀ (n : Nat) (q2 : Paragraph), P2.get? n = some q2 →
      ∃ q1, P1.get? n = some q1 ∧ stripId q2 = stripId q1 := by
    intro n q2 h2
    have hmap := congrArg (fun l => List.get? l n) hids
    simp only [List.get?_map] at hmap
    rw [h2, Option.map_some'] at hmap
    cases h1 : P1.get? n with
    | none => rw [h1] at hmap; cases hmap
    | some q1 =>
      rw [h1, Option.map_some'] at hmap
      exact ⟨q1, rfl, Option.some.inj hmap⟩
  have hlen : P2.length = P1.length := by
    have hh := congrArg List.length hids
    simpa using hh
  have hnoterr' : ∀ (n : Nat) (q1 : Paragraph), P1.get? n = some q1 →
      (processItem svc settings docTitle P1 (0 + n)
        (initEnhanced caches0 false (findChangedParagraphs prev P1) q1)
        emptyCaches).1.status ≠ EnhancementStatus.error := by
    intro n q1 h1
    apply hnoerr
    apply List.get?_mem (n := n)
    rw [show (processDocument svc settings docTitle prev P1 caches0 false).output =
      (runLoop svc settings docTitle P1
        (P1.map (initEnhanced caches0 false (findChangedParagraphs prev P1))) 0 caches0).1
      from rfl]
    rw [runLoop_output_get?, List.get?_map, h1, Option.map_some', Option.map_some']
  have hcacheseq : (processDocument svc settings docTitle prev P1 caches0 false).caches =
      (runLoop svc settings docTitle P1
        (P1.map (initEnhanced caches0 false (findChangedParagraphs prev P1)))
        0 caches0).2.1 := rfl
  constructor
  · apply List.eq_nil_iff_forall_not_mem.mpr
    intro x hx
    have hx' : x ∈ (runLoop svc settings docTitle P2
        (P2.map (initEnhanced
          (runLoop svc settings docTitle P1
            (P1.map (initEnhanced caches0 false (findChangedParagraphs prev P1))) 0 caches0).2.1
          false (findChangedParagraphs P1 P2))) 0
        (runLoop svc settings docTitle P1
          (P1.map (initEnhanced caches0 false (findChangedParagraphs prev P1)))
          0 caches0).2.1).2.2 := hx
    rcases runLoop_calls_mem svc settings docTitle P2 _ 0 _ x hx' with ⟨k, ep, hk, _, hcall⟩
    rw [List.get?_map] at hk
    cases h2 : P2.get? k with
    | none => rw [h2] at hk; cases hk
    | some q2 =>
      rw [h2, Option.map_some'] at hk
      rcases hpair k q2 h2 with ⟨q1, h1, hstripk⟩
      have hidx := (c4_index svc settings docTitle prev P1 P2 caches0 k q1 q2 h1 h2 hstripk
        hnodup (hnoterr' k q1 h1) hsugg).2
      rw [← Option.some.inj hk] at hcall
      rw [hidx] at hcall
      cases hcall
  · apply List.ext
    intro n
    rw [List.get?_map, List.get?_map]
    rw [show (processDocument svc settings docTitle P1 P2
        (processDocument svc settings docTitle prev P1 caches0 false).caches false).output =
      (runLoop svc settings docTitle P2
        (P2.map (initEnhanced
          (runLoop svc settings docTitle P1
            (P1.map (initEnhanced caches0 false (findChangedParagraphs prev P1))) 0 caches0).2.1
          false (findChangedParagraphs P1 P2))) 0
        (runLoop svc settings docTitle P1
          (P1.map (initEnhanced caches0 false (findChangedParagraphs prev P1)))
          0 caches0).2.1).1 from rfl]
    rw [show (processDocument svc settings docTitle prev P1 caches0 false).output =
      (runLoop svc settings docTitle P1
        (P1.map (initEnhanced caches0 false (findChangedParagraphs prev P1))) 0 caches0).1
      from rfl]
    rw [runLoop_output_get?, runLoop_output_get?, List.get?_map, List.get?_map]
    cases h1 : P1.get? n with
    | none =>
      have h2 : P2.get? n = none := by
        rw [List.get?_eq_none] at h1 ⊢
        omega
      rw [h2]
      rfl
    | some q1 =>
      have hn : n < P2.length := by
        rcases List.get?_eq_some.mp h1 with ⟨hlt, _⟩
        omega
      obtain ⟨q2, h2⟩ : ∃ q2, P2.get? n = some q2 := by
        cases hq : P2.get? n with
        | none =>
          rw [List.get?_eq_none] at hq
          omega
        | some q2 => exact ⟨q2, rfl⟩
      rcases hpair n q2 h2 with ⟨q1', h1', hstripn⟩
      have hidx := (c4_index svc settings docTitle prev P1 P2 caches0 n q1' q2 h1' h2 hstripn
        hnodup (hnoterr' n q1' h1') hsugg).1
      have hq : q1' = q1 := by
        rw [h1] at h1'
        exact (Option.some.inj h1').symm
      rw [h2]
      simp only [Option.map_some']
      rw [← hq]
      exact congrArg some hidx

/-- C4 witness: the amended theorem applied to a concrete one-paragraph
document with an always-succeeding service. -/
theorem c4_witness :
    (processDocument (fun _ => Except.ok (⟨"Enh", none⟩ : EnhanceResult))
        ⟨.expand, 2, 20000, true, "", "", "", true, ["md", "mdx"]⟩ "T"
        [⟨"Hello", 0, 0, .text, "id0", false, false, none⟩]
        [⟨"Hello", 0, 0, .text, "id1", false, false, none⟩]
        (processDocument (fun _ => Except.ok (⟨"Enh", none⟩ : EnhanceResult))
          ⟨.expand, 2, 20000, true, "", "", "", true, ["md", "mdx"]⟩ "T" []
          [⟨"Hello", 0, 0, .text, "id0", false, false, none⟩] emptyCaches false).caches
        false).calls = [] ∧
    (processDocument (fun _ => Except.ok (⟨"Enh", none⟩ : EnhanceResult))
        ⟨.expand, 2, 20000, true, "", "", "", true, ["md", "mdx"]⟩ "T"
        [⟨"Hello", 0, 0, .text, "id0", false, false, none⟩]
        [⟨"Hello", 0, 0, .text, "id1", false, false, none⟩]
        (processDocument (fun _ => Except.ok (⟨"Enh", none⟩ : EnhanceResult))
          ⟨.expand, 2, 20000, true, "", "", "", true, ["md", "mdx"]⟩ "T" []
          [⟨"Hello", 0, 0, .text, "id0", false, false, none⟩] emptyCaches false).caches
        false).output.map stripEId =
      (processDocument (fun _ => Except.ok (⟨"Enh", none⟩ : EnhanceResult))
        ⟨.expand, 2, 20000, true, "", "", "", true, ["md", "mdx"]⟩ "T" []
        [⟨"Hello", 0, 0, .text, "id0", false, false, none⟩] emptyCaches
        false).output.map stripEId :=
  c4_amended (fun _ => Except.ok (⟨"Enh", none⟩ : EnhanceResult))
    ⟨.expand, 2, 20000, true, "", "", "", true, ["md", "mdx"]⟩ "T" []
    [⟨"Hello", 0, 0, .text, "id0", false, false, none⟩]
    [⟨"Hello", 0, 0, .text, "id1", false, false, none⟩] emptyCaches
    (by decide) (by decide) (by decide) (fun req res h => by cases h; decide)

/-! ### C2: directive lines as paragraph boundaries -/

/-- C2: counterexample.  A standalone style-override directive line does NOT
act as a paragraph boundary: in `"A\n<!-- ai-style: expand -->\nB"` the
directive line is a style line, yet segmentation returns a single paragraph
spanning lines 0..2 whose content is `"A\nB"` — the accumulation of `"A"`
was not flushed, and the style mode was attached to that same surrounding
paragraph rather than to a following one. -/
theorem c2_counterexample :
    isStyleLine "<!-- ai-style: expand -->" = true ∧
    extractParagraphs 0 "A\n<!-- ai-style: expand -->\nB" =
      [{ content := "A\nB", startLine := 0, endLine := 2, type := .text,
         id := "para_0", ignore := false, noEnhance := false,
         styleOverride := some .expand }] :=
  ⟨by decide, by decide⟩

/-- C2 (amended): outside frontmatter, a standalone skip (`ai-ignore`)
directive line clears the accumulation, performs exactly the
`pushAccum false` flush (which attaches the OLD pending flags to the flushed
paragraph), and raises the skip flag for the NEXT paragraph; symmetrically
for the keep (`no-enhance`) directive; a standalone style-override directive
line, by contrast, only records the pending style mode and flushes nothing —
the state is unchanged except for `styleOverrideNext`. -/
theorem c2_amended (st : ExtractState) (i : Nat) (line : String)
    (hfm : st.inFrontmatter = false) :
    (isAiIgnoreLine (jsTrim line) = true →
      (extractStep st i line).currentParagraph = [] ∧
      (extractStep st i line).ignoreNextParagraph = true ∧
      (extractStep st i line).paragraphs =
        (pushAccum false st ((i : Int) - 1)).paragraphs) ∧
    (isNoEnhanceLine (jsTrim line) = true →
      isAiIgnoreLine (jsTrim line) = false →
      (extractStep st i line).currentParagraph = [] ∧
      (extractStep st i line).noEnhanceNextParagraph = true ∧
      (extractStep st i line).paragraphs =
        (pushAccum false st ((i : Int) - 1)).paragraphs) ∧
    (∀ m, parseStyleLine (jsTrim line) = some m →
      isAiIgnoreLine (jsTrim line) = false →
      isNoEnhanceLine (jsTrim line) = false →
      extractStep st i line = { st with styleOverrideNext := some m }) := by
  have h3 : ¬(st.inFrontmatter = true) := by rw [hfm]; exact Bool.false_ne_true
  refine ⟨?_, ?_, ?_⟩
  · intro hig
    have hne : jsTrim line ≠ "---" := by
      intro hh; rw [hh] at hig; exact absurd hig (by decide)
    have h1 : ¬(i = 0 ∧ jsTrim line = "---") := fun hc => hne hc.2
    have h2 : ¬(st.inFrontmatter = true ∧ jsTrim line = "---") := fun hc => h3 hc.1
    simp only [extractStep]
    rw [if_neg h1, if_neg h2, if_neg h3, if_pos hig]
    by_cases hcur : st.currentParagraph = []
    · rw [if_neg (not_not_intro hcur)]
      refine ⟨hcur, rfl, ?_⟩
      simp only [pushAccum, hcur]
      rw [if_neg (by intro hc; exact hc rfl)]
    · rw [if_pos hcur]
      exact ⟨rfl, rfl, rfl⟩
  · intro hnen hnig
    have hne : jsTrim line ≠ "---" := by
      intro hh; rw [hh] at hnen; exact absurd hnen (by decide)
    have h1 : ¬(i = 0 ∧ jsTrim line = "---") := fun hc => hne hc.2
    have h2 : ¬(st.inFrontmatter = true ∧ jsTrim line = "---") := fun hc => h3 hc.1
    have h4 : ¬(isAiIgnoreLine (jsTrim line) = true) := by
      rw [hnig]; exact Bool.false_ne_true
    simp only [extractStep]
    rw [if_neg h1, if_neg h2, if_neg h3, if_neg h4, if_pos hnen]
    by_cases hcur : st.currentParagraph = []
    · rw [if_neg (not_not_intro hcur)]
      refine ⟨hcur, rfl, ?_⟩
      simp only [pushAccum, hcur]
      rw [if_neg (by intro hc; exact hc rfl)]
    · rw [if_pos hcur]
      exact ⟨rfl, rfl, rfl⟩
  · intro m hm hnig hnnen
    have hne : jsTrim line ≠ "---" := by
      intro hh
      rw [hh] at hm
      have hnone : parseStyleLine "---" = none := by decide
      rw [hnone] at hm
      exact Option.noConfusion hm
    have h1 : ¬(i = 0 ∧ jsTrim line = "---") := fun hc => hne hc.2
    have h2 : ¬(st.inFrontmatter = true ∧ jsTrim line = "---") := fun hc => h3 hc.1
    have h4 : ¬(isAiIgnoreLine (jsTrim line) = true) := by
      rw [hnig]; exact Bool.false_ne_true
    have h5 : ¬(isNoEnhanceLine (jsTrim line) = true) := by
      rw [hnnen]; exact Bool.false_ne_true
    have h6 : (parseStyleLine (jsTrim line)).isSome = true := by
      rw [hm]; rfl
    simp only [extractStep]
    rw [if_neg h1, if_neg h2, if_neg h3, if_neg h4, if_neg h5, if_pos h6, hm]

/-- C2: closed instantiation of the amended theorem at a concrete state with
a non-empty accumulation and a skip-directive line. -/
theorem c2_witness :
    (extractStep ⟨[], ["A"], 3, false, "", false, false, none, false, -1, 0⟩
        5 "<!-- ai-ignore -->").currentParagraph = [] ∧
    (extractStep ⟨[], ["A"], 3, false, "", false, false, none, false, -1, 0⟩
        5 "<!-- ai-ignore -->").ignoreNextParagraph = true := by
  have h := c2_amended ⟨[], ["A"], 3, false, "", false, false, none, false, -1, 0⟩
    5 "<!-- ai-ignore -->" rfl
  exact ⟨(h.1 (by decide)).1, (h.1 (by decide)).2.1⟩

/-! ### C1: segmentation span invariants -/

/-- C1: counterexample.  In the three-line document `"A\n\nB"` the blank
middle line (line 1) is covered by no paragraph span, so the spans do not
cover every line of the document. -/
theorem c1_counterexample :
    extractParagraphs 0 "A\n\nB" =
      [{ content := "A", startLine := 0, endLine := 0, type := .text,
         id := "para_0", ignore := false, noEnhance := false, styleOverride := none },
       { content := "B", startLine := 2, endLine := 2, type := .text,
         id := "para_1", ignore := false, noEnhance := false, styleOverride := none }] ∧
    (jsSplitLines "A\n\nB").length = 3 ∧
    (∀ p ∈ extractParagraphs 0 "A\n\nB",
      ¬(p.startLine ≤ 1 ∧ (1 : Int) ≤ p.endLine)) :=
  ⟨by decide, by decide, by decide⟩

theorem sliceList_self (lines : List String) (a : Nat) : sliceList lines a a = [] := by
  simp only [sliceList]
  apply List.drop_eq_nil_of_le
  rw [List.length_take]
  omega

theorem sliceList_snoc (lines : List String) (a i : Nat) (line : String)
    (hline : lines.get? i = some line) (ha : a ≤ i) :
    sliceList lines a (i + 1) = sliceList lines a i ++ [line] := by
  have hi : i < lines.length := by
    by_contra hc
    rw [List.get?_eq_none.mpr (by omega)] at hline
    exact Option.noConfusion hline
  have hline' : lines[i]? = some line := by
    rw [← List.get?_eq_getElem?]
    exact hline
  simp only [sliceList]
  rw [List.take_succ, hline']
  rw [List.drop_append_of_le_length (by rw [List.length_take]; omega)]
  rfl

theorem ParagraphOk_mono (lines : List String) {i j : Int} (h : i ≤ j) (p : Paragraph) :
    ParagraphOk lines i p → ParagraphOk lines j p := by
  intro hp
  obtain ⟨h1, h2, h3, h4⟩ := hp
  exact ⟨h1, h2, lt_of_lt_of_le h3 h, h4⟩

theorem NoStyleBetween_shrink (lines : List String) {a b c : Int} (h : c ≤ b) :
    NoStyleBetween lines a b → NoStyleBetween lines a c :=
  fun hns j h1 h2 => hns j h1 (by omega)

theorem getD_of_get? {lines : List String} {i : Nat} {line : String}
    (h : lines.get? i = some line) : lines.getD i "" = line := by
  rw [List.getD_eq_getElem?_getD, ← List.get?_eq_getElem?, h]
  rfl

theorem intercalate_cons_nil (l : String) :
    String.intercalate "\n" [l] = l := rfl

theorem pushAccum_ok (lines : List String) (i : Nat) (st : ExtractState) (b : Bool)
    (hfm : st.inFrontmatter = false)
    (hinv : ExtractInv lines i st) :
    (∀ p ∈ (pushAccum b st ((i : Int) - 1)).paragraphs, ParagraphOk lines (i : Int) p) ∧
    (pushAccum b st ((i : Int) - 1)).paragraphs.Pairwise
      (fun a c => a.endLine < c.startLine) := by
  obtain ⟨hok, hpair, hcur, _, _, _⟩ := hinv
  simp only [pushAccum]
  by_cases hne : jsTrim (String.intercalate "\n" st.currentParagraph) ≠ ""
  · rw [if_pos hne]
    have hcne : st.currentParagraph ≠ [] := by
      intro hc
      apply hne
      rw [hc]
      rfl
    obtain ⟨hs0, hsi, hends, hslice⟩ := hcur hcne hfm
    constructor
    · intro p hp
      simp only [List.mem_append, List.mem_singleton] at hp
      cases hp with
      | inl h => exact hok p h
      | inr h =>
        subst h
        simp only [ParagraphOk]
        refine ⟨hs0, by omega, by omega, ?_⟩
        intro hns
        have hsl := hslice (fun j hj1 hj2 => hns j hj1 (by omega))
        simp only [joinRange]
        have hcast : ((i : Int) - 1).toNat + 1 = i := by omega
        rw [hcast, ← hsl]
    · rw [List.pairwise_append]
      refine ⟨hpair, List.pairwise_singleton _ _, ?_⟩
      intro a ha c hc
      simp only [List.mem_singleton] at hc
      subst hc
      exact hends a ha
  · rw [if_neg hne]
    exact ⟨hok, hpair⟩

theorem ParagraphOk_elim {lines : List String} {i : Int} {p : Paragraph}
    (h : ParagraphOk lines i p) :
    0 ≤ p.startLine ∧ p.startLine ≤ p.endLine ∧ p.endLine < i ∧
    (NoStyleBetween lines p.startLine (p.endLine + 1) →
      p.content = joinRange lines p.startLine p.endLine) := h

theorem pushAccum_fields (b : Bool) (st : ExtractState) (e : Int) :
    (pushAccum b st e).currentParagraph = st.currentParagraph ∧
    (pushAccum b st e).startLine = st.startLine ∧
    (pushAccum b st e).inCodeBlock = st.inCodeBlock ∧
    (pushAccum b st e).inFrontmatter = st.inFrontmatter ∧
    (pushAccum b st e).frontmatterStart = st.frontmatterStart := by
  simp only [pushAccum]
  split
  · exact ⟨rfl, rfl, rfl, rfl, rfl⟩
  · exact ⟨rfl, rfl, rfl, rfl, rfl⟩

theorem sliceList_single (lines : List String) (i : Nat) (line : String)
    (hline : lines.get? i = some line) :
    sliceList lines i (i + 1) = [line] := by
  rw [sliceList_snoc lines i i line hline (le_refl i), sliceList_self]
  rfl

theorem extractStep_inv (lines : List String) (i : Nat) (line : String)
    (st : ExtractState)
    (hline : lines.get? i = some line)
    (hinv : ExtractInv lines i st)
    (hnd : st.inCodeBlock = true → isDirectiveLine line = false) :
    ExtractInv lines (i + 1) (extractStep st i line) := by
  have hinvK := hinv
  simp only [ExtractInv] at hinv
  obtain ⟨hok, hpair, hcur, hfmc, hcode, hinit⟩ := hinv
  have hgetD := getD_of_get? hline
  have hii : ((i : Nat) : Int) ≤ ((i + 1 : Nat) : Int) := by push_cast; omega
  have htn : ((i : Nat) : Int).toNat = i := by omega
  have hok1 : ∀ p ∈ st.paragraphs, ParagraphOk lines ((i + 1 : Nat) : Int) p :=
    fun p hp => ParagraphOk_mono lines hii p (hok p hp)
  simp only [extractStep]
  by_cases h1 : i = 0 ∧ jsTrim line = "---"
  · rw [if_pos h1]
    obtain ⟨hi0, _⟩ := h1
    subst hi0
    obtain ⟨hsz, hfm0⟩ := hinit rfl
    have hpnil : st.paragraphs = [] := by
      cases hps : st.paragraphs with
      | nil => rfl
      | cons p ps =>
        have hm := ParagraphOk_elim (hok p (by rw [hps]; exact List.mem_cons_self p ps))
        obtain ⟨a, b, c, _⟩ := hm
        omega
    have hcbF : st.inCodeBlock = false := by
      by_cases hcb : st.inCodeBlock = true
      · obtain ⟨hcne, hfm2⟩ := hcode hcb
        obtain ⟨a, b, _, _⟩ := hcur hcne hfm2
        omega
      · revert hcb; cases st.inCodeBlock <;> simp
    simp only [ExtractInv]
    refine ⟨?_, ?_, ?_, ?_, ?_, ?_⟩
    · rw [hpnil]; intro p hp; exact absurd hp (List.not_mem_nil p)
    · exact hpair
    · intro _ hfm'; exact Bool.noConfusion hfm'
    · intro _
      refine ⟨hpnil, ?_, List.cons_ne_nil line [], by first | trivial | rfl,
        hsz, hcbF, by first | trivial | omega⟩
      rw [show (1 : Nat) = 0 + 1 from rfl, sliceList_single lines 0 line hline]
    · intro hx; rw [hcbF] at hx; exact Bool.noConfusion hx
    · intro hx; exact absurd hx (by omega)
  · rw [if_neg h1]
    by_cases h2 : st.inFrontmatter = true ∧ jsTrim line = "---"
    · rw [if_pos h2]
      obtain ⟨hp0, hsl, hcne, hfs, hs0c, hcbF, hn1⟩ := hfmc h2.1
      simp only [ExtractInv]
      refine ⟨?_, ?_, ?_, ?_, ?_, ?_⟩
      · rw [hp0, List.nil_append]
        intro p hp
        rw [List.mem_singleton] at hp
        subst hp
        simp only [ParagraphOk]
        refine ⟨by omega, by omega, by omega, ?_⟩
        intro _
        rw [hfs]
        simp only [joinRange]
        have h0t : ((0 : Int)).toNat = 0 := rfl
        rw [h0t, htn, sliceList_snoc lines 0 i line hline (Nat.zero_le i), ← hsl]
      · rw [hp0, List.nil_append]
        exact List.pairwise_singleton _ _
      · intro hx _; exact absurd rfl hx
      · intro hx; exact Bool.noConfusion hx
      · intro hx; rw [hcbF] at hx; exact Bool.noConfusion hx
      · intro hx; exact absurd hx (by omega)
    · rw [if_neg h2]
      by_cases h3 : st.inFrontmatter = true
      · rw [if_pos h3]
        obtain ⟨hp0, hsl, hcne, hfs, hs0c, hcbF, hn1⟩ := hfmc h3
        simp only [ExtractInv]
        refine ⟨hok1, hpair, ?_, ?_, ?_, ?_⟩
        · intro _ hfm'; rw [h3] at hfm'; exact Bool.noConfusion hfm'
        · intro _
          refine ⟨hp0, ?_, by simp, hfs, hs0c, hcbF, by omega⟩
          rw [sliceList_snoc lines 0 i line hline (Nat.zero_le i), ← hsl]
        · intro hx; rw [hcbF] at hx; exact Bool.noConfusion hx
        · intro hx; exact absurd hx (by omega)
      · rw [if_neg h3]
        have hfm : st.inFrontmatter = false := by
          revert h3; cases st.inFrontmatter <;> simp
        by_cases h4 : isAiIgnoreLine (jsTrim line) = true
        · rw [if_pos h4]
          by_cases hc : st.currentParagraph = []
          · rw [if_neg (not_not_intro hc)]
            simp only [ExtractInv]
            refine ⟨hok1, hpair, ?_, ?_, ?_, ?_⟩
            · intro hcne _; exact absurd hc hcne
            · intro hx; rw [hfm] at hx; exact Bool.noConfusion hx
            · intro hx
              obtain ⟨hcne, _⟩ := hcode hx
              exact absurd hc hcne
            · intro hx; exact absurd hx (by omega)
          · rw [if_pos hc]
            obtain ⟨hokP, hpairP⟩ := pushAccum_ok lines i st false hfm hinvK
            simp only [ExtractInv]
            refine ⟨?_, hpairP, ?_, ?_, ?_, ?_⟩
            · exact fun p hp => ParagraphOk_mono lines hii p (hokP p hp)
            · intro hcne _; exact absurd rfl hcne
            · intro hx
              rw [(pushAccum_fields false st ((i : Int) - 1)).2.2.2.1, hfm] at hx
              exact Bool.noConfusion hx
            · intro hx
              rw [(pushAccum_fields false st ((i : Int) - 1)).2.2.1] at hx
              have hd := hnd hx
              simp [isDirectiveLine, h4] at hd
            · intro hx; exact absurd hx (by omega)
        · rw [if_neg h4]
          by_cases h5 : isNoEnhanceLine (jsTrim line) = true
          · rw [if_pos h5]
            by_cases hc : st.currentParagraph = []
            · rw [if_neg (not_not_intro hc)]
              simp only [ExtractInv]
              refine ⟨hok1, hpair, ?_, ?_, ?_, ?_⟩
              · intro hcne _; exact absurd hc hcne
              · intro hx; rw [hfm] at hx; exact Bool.noConfusion hx
              · intro hx
                obtain ⟨hcne, _⟩ := hcode hx
                exact absurd hc hcne
              · intro hx; exact absurd hx (by omega)
            · rw [if_pos hc]
              obtain ⟨hokP, hpairP⟩ := pushAccum_ok lines i st false hfm hinvK
              simp only [ExtractInv]
              refine ⟨?_, hpairP, ?_, ?_, ?_, ?_⟩
              · exact fun p hp => ParagraphOk_mono lines hii p (hokP p hp)
              · intro hcne _; exact absurd rfl hcne
              · intro hx
                rw [(pushAccum_fields false st ((i : Int) - 1)).2.2.2.1, hfm] at hx
                exact Bool.noConfusion hx
              · intro hx
                rw [(pushAccum_fields false st ((i : Int) - 1)).2.2.1] at hx
                have hd := hnd hx
                simp [isDirectiveLine, h5] at hd
              · intro hx; exact absurd hx (by omega)
          · rw [if_neg h5]
            by_cases h6 : (parseStyleLine (jsTrim line)).isSome = true
            · rw [if_pos h6]
              simp only [ExtractInv]
              refine ⟨hok1, hpair, ?_, ?_, ?_, ?_⟩
              · intro hcne hfm'
                obtain ⟨a, b, c, d⟩ := hcur hcne hfm'
                refine ⟨a, by omega, c, ?_⟩
                intro hns
                exfalso
                have hst : isStyleLine (lines.getD i "") = false :=
                  hns i (by omega) (by omega)
                rw [hgetD] at hst
                have h6' : isStyleLine line = true := by
                  simp only [isStyleLine]; exact h6
                rw [hst] at h6'
                exact Bool.noConfusion h6'
              · intro hx; rw [hfm] at hx; exact Bool.noConfusion hx
              · intro hx; exact hcode hx
              · intro hx; exact absurd hx (by omega)
            · rw [if_neg h6]
              by_cases h7 : startsWithLit "```".data (jsTrim line) = true ∨
                  startsWithLit "~~~".data (jsTrim line) = true
              · rw [if_pos h7]
                by_cases hcbF2 : st.inCodeBlock = false
                · rw [if_pos hcbF2]
                  by_cases hc : st.currentParagraph = []
                  · rw [if_neg (not_not_intro hc)]
                    simp only [ExtractInv]
                    refine ⟨hok1, hpair, ?_, ?_, ?_, ?_⟩
                    · intro _ _
                      refine ⟨by omega, by omega,
                        fun p hp => (ParagraphOk_elim (hok p hp)).2.2.1, ?_⟩
                      intro _
                      rw [htn]
                      exact (sliceList_single lines i line hline).symm
                    · intro hx; rw [hfm] at hx; exact Bool.noConfusion hx
                    · intro _; exact ⟨List.cons_ne_nil line [], hfm⟩
                    · intro hx; exact absurd hx (by omega)
                  · rw [if_pos hc]
                    obtain ⟨hokP, hpairP⟩ := pushAccum_ok lines i st true hfm hinvK
                    simp only [ExtractInv]
                    refine ⟨?_, hpairP, ?_, ?_, ?_, ?_⟩
                    · exact fun p hp => ParagraphOk_mono lines hii p (hokP p hp)
                    · intro _ _
                      refine ⟨by omega, by omega,
                        fun p hp => (ParagraphOk_elim (hokP p hp)).2.2.1, ?_⟩
                      intro _
                      rw [htn]
                      exact (sliceList_single lines i line hline).symm
                    · intro hx
                      rw [(pushAccum_fields true st ((i : Int) - 1)).2.2.2.1, hfm] at hx
                      exact Bool.noConfusion hx
                    · intro _
                      refine ⟨List.cons_ne_nil line [], ?_⟩
                      rw [(pushAccum_fields true st ((i : Int) - 1)).2.2.2.1]
                      exact hfm
                    · intro hx; exact absurd hx (by omega)
                · rw [if_neg hcbF2]
                  have hcbT : st.inCodeBlock = true := by
                    revert hcbF2; cases st.inCodeBlock <;> simp
                  obtain ⟨hcne2, _⟩ := hcode hcbT
                  obtain ⟨hs0, hsi, hends, hslice⟩ := hcur hcne2 hfm
                  by_cases h9 : startsWithLit st.codeBlockDelimiter.data (jsTrim line) = true
                  · rw [if_pos h9]
                    simp only [ExtractInv]
                    refine ⟨?_, ?_, ?_, ?_, ?_, ?_⟩
                    · intro p hp
                      rw [List.mem_append, List.mem_singleton] at hp
                      cases hp with
                      | inl h => exact hok1 p h
                      | inr h =>
                        subst h
                        simp only [ParagraphOk]
                        refine ⟨hs0, by omega, by omega, ?_⟩
                        intro hns
                        have hsl2 := hslice (fun j hj1 hj2 => hns j hj1 (by omega))
                        simp only [joinRange]
                        rw [htn, sliceList_snoc lines st.startLine.toNat i line hline
                          (by omega), ← hsl2]
                    · rw [List.pairwise_append]
                      refine ⟨hpair, List.pairwise_singleton _ _, ?_⟩
                      intro a ha c hc2
                      rw [List.mem_singleton] at hc2
                      subst hc2
                      exact hends a ha
                    · intro hx _; exact absurd rfl hx
                    · intro hx; rw [hfm] at hx; exact Bool.noConfusion hx
                    · intro hx; exact Bool.noConfusion hx
                    · intro hx; exact absurd hx (by omega)
                  · rw [if_neg h9]
                    simp only [ExtractInv]
                    refine ⟨hok1, hpair, ?_, ?_, ?_, ?_⟩
                    · intro _ _
                      refine ⟨hs0, by omega, hends, ?_⟩
                      intro hns
                      have hsl2 := hslice (fun j hj1 hj2 => hns j hj1 (by omega))
                      rw [sliceList_snoc lines st.startLine.toNat i line hline
                        (by omega), ← hsl2]
                    · intro hx; rw [hfm] at hx; exact Bool.noConfusion hx
                    · intro _; exact ⟨by simp, hfm⟩
                    · intro hx; exact absurd hx (by omega)
              · rw [if_neg h7]
                by_cases h10 : st.inCodeBlock = true
                · rw [if_pos h10]
                  obtain ⟨hcne2, _⟩ := hcode h10
                  obtain ⟨hs0, hsi, hends, hslice⟩ := hcur hcne2 hfm
                  simp only [ExtractInv]
                  refine ⟨hok1, hpair, ?_, ?_, ?_, ?_⟩
                  · intro _ _
                    refine ⟨hs0, by omega, hends, ?_⟩
                    intro hns
                    have hsl2 := hslice (fun j hj1 hj2 => hns j hj1 (by omega))
                    rw [sliceList_snoc lines st.startLine.toNat i line hline
                      (by omega), ← hsl2]
                  · intro hx; rw [hfm] at hx; exact Bool.noConfusion hx
                  · intro _; exact ⟨by simp, hfm⟩
                  · intro hx; exact absurd hx (by omega)
                · rw [if_neg h10]
                  have hcbF3 : st.inCodeBlock = false := by
                    revert h10; cases st.inCodeBlock <;> simp
                  by_cases h11 : jsTrim line = ""
                  · rw [if_pos h11]
                    by_cases hc : st.currentParagraph = []
                    · rw [if_neg (not_not_intro hc)]
                      refine ⟨hok1, hpair, ?_, ?_, ?_, ?_⟩
                      · intro hcne _; exact absurd hc hcne
                      · intro hx; rw [hfm] at hx; exact Bool.noConfusion hx
                      · intro hx; rw [hcbF3] at hx; exact Bool.noConfusion hx
                      · intro hx; exact absurd hx (by omega)
                    · rw [if_pos hc]
                      obtain ⟨hokP, hpairP⟩ := pushAccum_ok lines i st true hfm hinvK
                      simp only [ExtractInv]
                      refine ⟨?_, hpairP, ?_, ?_, ?_, ?_⟩
                      · exact fun p hp => ParagraphOk_mono lines hii p (hokP p hp)
                      · intro hcne _; exact absurd rfl hcne
                      · intro hx
                        rw [(pushAccum_fields true st ((i : Int) - 1)).2.2.2.1,
                          hfm] at hx
                        exact Bool.noConfusion hx
                      · intro hx
                        rw [(pushAccum_fields true st ((i : Int) - 1)).2.2.1,
                          hcbF3] at hx
                        exact Bool.noConfusion hx
                      · intro hx; exact absurd hx (by omega)
                  · rw [if_neg h11]
                    by_cases hc : st.currentParagraph = []
                    · rw [if_pos hc]
                      simp only [ExtractInv]
                      refine ⟨hok1, hpair, ?_, ?_, ?_, ?_⟩
                      · intro _ _
                        refine ⟨by omega, by omega,
                          fun p hp => (ParagraphOk_elim (hok p hp)).2.2.1, ?_⟩
                        intro _
                        rw [htn, hc, List.nil_append]
                        exact (sliceList_single lines i line hline).symm
                      · intro hx; rw [hfm] at hx; exact Bool.noConfusion hx
                      · intro hx; rw [hcbF3] at hx; exact Bool.noConfusion hx
                      · intro hx; exact absurd hx (by omega)
                    · rw [if_neg hc]
                      obtain ⟨hs0, hsi, hends, hslice⟩ := hcur hc hfm
                      simp only [ExtractInv]
                      refine ⟨hok1, hpair, ?_, ?_, ?_, ?_⟩
                      · intro _ _
                        refine ⟨hs0, by omega, hends, ?_⟩
                        intro hns
                        have hsl2 := hslice (fun j hj1 hj2 => hns j hj1 (by omega))
                        rw [sliceList_snoc lines st.startLine.toNat i line hline
                          (by omega), ← hsl2]
                      · intro hx; rw [hfm] at hx; exact Bool.noConfusion hx
                      · intro hx; rw [hcbF3] at hx; exact Bool.noConfusion hx
                      · intro hx; exact absurd hx (by omega)


theorem runLines_inv (lines : List String) :
    ∀ (rest : List String) (i : Nat) (st : ExtractState),
      lines.drop i = rest →
      noDirLineInCodeAux rest i st = true →
      ExtractInv lines i st →
      ExtractInv lines (i + rest.length) (runLines rest i st) := by
  intro rest
  induction rest with
  | nil =>
    intro i st _ _ h
    simpa using h
  | cons l ls ih =>
    intro i st hdrop hnd hinv
    have h0 : (lines.drop i).get? 0 = some l := by rw [hdrop]; rfl
    rw [List.get?_drop] at h0
    have hline : lines.get? i = some l := by
      rw [show i = i + 0 from rfl]
      exact h0
    simp only [noDirLineInCodeAux, Bool.and_eq_true] at hnd
    obtain ⟨hnd1, hnd2⟩ := hnd
    have hnd1' : st.inCodeBlock = true → isDirectiveLine l = false := by
      intro hc
      rw [hc] at hnd1
      simpa using hnd1
    have hstep := extractStep_inv lines i l st hline hinv hnd1'
    have hdrop' : lines.drop (i + 1) = ls := by
      have hdd : (lines.drop i).drop 1 = lines.drop (i + 1) := List.drop_drop 1 i lines
      rw [hdrop] at hdd
      exact hdd.symm
    have hres := ih (i + 1) (extractStep st i l) hdrop' hnd2 hstep
    simp only [runLines, List.length_cons]
    rw [show i + (ls.length + 1) = i + 1 + ls.length from by omega]
    exact hres

theorem finalFlush_ok (lines : List String) (st : ExtractState)
    (hinv : ExtractInv lines lines.length st) :
    (∀ p ∈ finalFlush st lines.length, ParagraphOk lines (lines.length : Int) p) ∧
    (finalFlush st lines.length).Pairwise (fun a b => a.endLine < b.startLine) := by
  have hinvK := hinv
  simp only [ExtractInv] at hinv
  obtain ⟨hok, hpair, hcur, hfmc, hcode, _⟩ := hinv
  simp only [finalFlush]
  by_cases hcne : st.currentParagraph ≠ []
  · rw [if_pos hcne]
    by_cases hne : jsTrim (String.intercalate "\n" st.currentParagraph) ≠ ""
    · rw [if_pos hne]
      by_cases hfm : st.inFrontmatter = true
      · obtain ⟨hp0, hsl, _, _, hsz, _, hn1⟩ := hfmc hfm
        constructor
        · intro p hp
          rw [hp0, List.nil_append, List.mem_singleton] at hp
          subst hp
          simp only [ParagraphOk]
          refine ⟨by omega, by omega, by omega, ?_⟩
          intro _
          rw [hsz]
          simp only [joinRange]
          have h0t : ((0 : Int)).toNat = 0 := rfl
          have hlt : ((lines.length : Int) - 1).toNat + 1 = lines.length := by omega
          rw [h0t, hlt, ← hsl]
        · rw [hp0, List.nil_append]
          exact List.pairwise_singleton _ _
      · have hfm' : st.inFrontmatter = false := by
          revert hfm; cases st.inFrontmatter <;> simp
        obtain ⟨hs0, hsi, hends, hslice⟩ := hcur hcne hfm'
        constructor
        · intro p hp
          rw [List.mem_append, List.mem_singleton] at hp
          cases hp with
          | inl h => exact hok p h
          | inr h =>
            subst h
            simp only [ParagraphOk]
            refine ⟨hs0, by omega, by omega, ?_⟩
            intro hns
            have hsl2 := hslice (fun j hj1 hj2 => hns j hj1 (by omega))
            simp only [joinRange]
            have hlt : ((lines.length : Int) - 1).toNat + 1 = lines.length := by omega
            rw [hlt, ← hsl2]
        · rw [List.pairwise_append]
          refine ⟨hpair, List.pairwise_singleton _ _, ?_⟩
          intro a ha c hc2
          rw [List.mem_singleton] at hc2
          subst hc2
          exact hends a ha
    · rw [if_neg hne]
      exact ⟨hok, hpair⟩
  · rw [if_neg hcne]
    exact ⟨hok, hpair⟩

theorem extractInv_init (lines : List String) (c0 : Nat) :
    ExtractInv lines 0 (initExtractState c0) := by
  simp only [ExtractInv, initExtractState]
  refine ⟨?_, ?_, ?_, ?_, ?_, ?_⟩
  · intro p hp; exact absurd hp (List.not_mem_nil p)
  · exact List.Pairwise.nil
  · intro hc _; exact absurd rfl hc
  · intro hx; exact Bool.noConfusion hx
  · intro hx; exact Bool.noConfusion hx
  · intro _; constructor <;> trivial

/-- C1 (amended): for every id-counter seed and document text in which no
standalone directive line occurs inside a fenced code region, every
paragraph returned by `extractParagraphs` has a span with
`0 ≤ startLine ≤ endLine < number of lines`, the spans are pairwise
disjoint and in strictly ascending order, and whenever no standalone
style-override directive line lies strictly inside a paragraph's span, its
content is exactly the newline-joined text of its lines
`startLine..endLine`.  (The claim's additional "cover every line exactly
once" part is refuted by `c1_counterexample`: blank separator lines and
standalone directive lines are covered by no span, and without the
no-directive-in-code hypothesis spans can overlap.) -/
theorem c1_amended (c0 : Nat) (content : String)
    (hnd : noDirectiveLineInCode c0 content = true) :
    (∀ p ∈ extractParagraphs c0 content,
      0 ≤ p.startLine ∧ p.startLine ≤ p.endLine ∧
      p.endLine < ((jsSplitLines content).length : Int) ∧
      (NoStyleBetween (jsSplitLines content) p.startLine (p.endLine + 1) →
        p.content = joinRange (jsSplitLines content) p.startLine p.endLine)) ∧
    (extractParagraphs c0 content).Pairwise (fun a b => a.endLine < b.startLine) := by
  simp only [noDirectiveLineInCode] at hnd
  have hrun := runLines_inv (jsSplitLines content) (jsSplitLines content) 0
    (initExtractState c0) rfl hnd (extractInv_init (jsSplitLines content) c0)
  rw [Nat.zero_add] at hrun
  have hfin := finalFlush_ok (jsSplitLines content) _ hrun
  simp only [extractParagraphs]
  exact ⟨fun p hp => ParagraphOk_elim (hfin.1 p hp), hfin.2⟩

/-- C1: the amended theorem applied to the concrete document `"A\n\nB"`
(whose no-directive-in-code hypothesis holds by computation). -/
theorem c1_witness :
    noDirectiveLineInCode 0 "A\n\nB" = true ∧
    ((∀ p ∈ extractParagraphs 0 "A\n\nB",
        0 ≤ p.startLine ∧ p.startLine ≤ p.endLine ∧
        p.endLine < ((jsSplitLines "A\n\nB").length : Int) ∧
        (NoStyleBetween (jsSplitLines "A\n\nB") p.startLine (p.endLine + 1) →
          p.content = joinRange (jsSplitLines "A\n\nB") p.startLine p.endLine)) ∧
      (extractParagraphs 0 "A\n\nB").Pairwise
        (fun a b => a.endLine < b.startLine)) :=
  ⟨by decide, c1_amended 0 "A\n\nB" (by decide)⟩

end MarkTwo
